import Mathlib

/-!
# Verification of the DeepSearch indexing and search pipeline

A shallow embedding of the core algorithms of the DeepSearch repository
(file-system search engine with a keyword index, a vector/chunk index and a
hybrid ranker), together with theorems settling the specification claims.

Python strings are modelled as `List Char`, Python `int` as `Int`/`Nat`,
Python `float` scores and weights as `ℚ` (exact arithmetic; IEEE rounding is
abstracted), dictionaries as insertion-ordered association lists, and
Python's stable `list.sort` as `List.mergeSort` (extensionally equal to any
stable sort by the same key).  External libraries (the llama-index sentence
splitter, Whoosh's searcher, the embedding model) enter as parameters; the
code of this repository is translated from the source.
-/

namespace DeepSearch

/-- Characters of a Python `str`. -/
abbrev Str := List Char

/-- Python whitespace, as recognised by `str.strip`, `str.isspace` and the
regex class `\s` on `str` (ASCII part plus the common Unicode members used
by CPython). -/
def pyIsSpace (c : Char) : Bool :=
  c.toNat = 0x20 || c.toNat = 0x09 || c.toNat = 0x0a || c.toNat = 0x0d ||
  c.toNat = 0x0b || c.toNat = 0x0c || c.toNat = 0x1c || c.toNat = 0x1d ||
  c.toNat = 0x1e || c.toNat = 0x1f || c.toNat = 0x85 || c.toNat = 0xa0 ||
  c.toNat = 0x2028 || c.toNat = 0x2029 || c.toNat = 0x3000 ||
  (0x2000 ≤ c.toNat && c.toNat ≤ 0x200a)

/-- Python `str.strip()` (no argument): remove leading and trailing
whitespace. -/
def pyStrip (s : Str) : Str :=
  ((s.dropWhile pyIsSpace).reverse.dropWhile pyIsSpace).reverse

/-- Decimal rendering, fuelled so that it computes by structural
recursion (`fuel` only needs to exceed the number of digits; `n + 1`
always suffices). -/
def natDigitsAux : Nat → Nat → Str
  | 0, _ => []
  | fuel + 1, n =>
    if n < 10 then [Char.ofNat (48 + n)]
    else natDigitsAux fuel (n / 10) ++ [Char.ofNat (48 + n % 10)]

/-- Python decimal rendering of a natural number, as produced by
`f"{i}"` for a non-negative `int`. -/
def natDigits (n : Nat) : Str := natDigitsAux (n + 1) n

/-- `chunking.py`: the chunk-id separator in `f"{source_path}:chunk:{i}"`. -/
def sepChunk : Str := ":chunk:".toList

/-- `chunking.py` (`DocumentChunk.chunk_id`): deterministic chunk id
`f"{source_path}:chunk:{i}"`. -/
def mkChunkId (p : Str) (i : Nat) : Str := p ++ sepChunk ++ natDigits i

/-- The denormalized file-metadata snapshot attached to each chunk
(`file_metadata_dict` built in `enhanced_manager._process_file_enhanced`). -/
structure FileMetaSnapshot where
  filename : Str
  extension : Str
  file_type : Str
  mime_type : Str
  size : Int
  modified_time : Str
  created_time : Str
  deriving Repr, DecidableEq, Inhabited

/-- `chunking.py` (`DocumentChunk`): a chunk of document content. -/
structure DocumentChunk where
  text : Str
  chunk_id : Str
  source_path : Str
  chunk_index : Nat
  start_char : Int
  end_char : Int
  metadata : FileMetaSnapshot
  deriving Repr, DecidableEq, Inhabited

/-- Python `str.find(sub, start)` scanning positions `i, i+1, ...`:
returns the first position at which `sub` occurs, else `-1`.  `fuel`
bounds the number of positions inspected. -/
def pyFindFrom (s sub : Str) : Nat → Nat → Int
  | _, 0 => -1
  | i, fuel + 1 =>
    if sub.isPrefixOf (s.drop i) then (i : Int) else pyFindFrom s sub (i + 1) fuel

/-- Python `str.find(sub, start)`: smallest index `i ≥ start` (with the
negative `start` adjusted by the string length and clamped at `0`, as in
slicing) at which `sub` occurs in `s`, else `-1`. -/
def pyFind (s sub : Str) (start : Int) : Int :=
  let st : Nat := if start < 0 then (max ((s.length : Int) + start) 0).toNat
                  else start.toNat
  if st > s.length then -1
  else pyFindFrom s sub st (s.length + 1 - st)

/-- `chunking.py` (`DocumentChunker._clean_content`), step 1:
`re.sub(r"\s+", " ", content)` — collapse every maximal whitespace run to a
single space.  `prev` records whether the previous character was part of a
run. -/
def collapseWsAux : Bool → Str → Str
  | _, [] => []
  | prev, c :: cs =>
    if pyIsSpace c then
      if prev then collapseWsAux true cs else ' ' :: collapseWsAux true cs
    else c :: collapseWsAux false cs

/-- Characters removed by `_clean_content`, step 2:
`[\x00-\x08\x0b\x0c\x0e-\x1f\x7f-\x9f]`. -/
def isCtrlStrip (c : Char) : Bool :=
  c.toNat ≤ 0x08 || c.toNat = 0x0b || c.toNat = 0x0c ||
  (0x0e ≤ c.toNat && c.toNat ≤ 0x1f) || (0x7f ≤ c.toNat && c.toNat ≤ 0x9f)

/-- `_clean_content`, step 3a: `content.replace("\r\n", "\n")`. -/
def replaceCrLf : Str → Str
  | [] => []
  | '\r' :: '\n' :: cs => '\n' :: replaceCrLf cs
  | c :: cs => c :: replaceCrLf cs

/-- `chunking.py` (`DocumentChunker._clean_content`): collapse whitespace,
strip control characters, normalize line endings, trim. -/
def cleanContent (content : Str) : Str :=
  pyStrip ((replaceCrLf ((collapseWsAux false content).filter
    (fun c => !isCtrlStrip c))).map (fun c => if c = '\r' then '\n' else c))

/-- `chunking.py` (`DocumentChunker.chunk_document`), offset-assignment
loop: for each segment, `start_char` is looked up with
`cleaned_content.find(chunk_text, current_pos)` (falling back to
`current_pos` when not found), `end_char = start_char + len(chunk_text)`,
and the cursor advances to `end_char - chunk_overlap`. -/
def chunkLoop (cleaned : Str) (overlap : Int) (path : Str)
    (meta : FileMetaSnapshot) : List Str → Nat → Int → List DocumentChunk
  | [], _, _ => []
  | seg :: rest, i, currentPos =>
    let f := pyFind cleaned seg currentPos
    let start := if f = -1 then currentPos else f
    let endc := start + (seg.length : Int)
    { text := pyStrip seg
      chunk_id := mkChunkId path i
      source_path := path
      chunk_index := i
      start_char := start
      end_char := endc
      metadata := meta } :: chunkLoop cleaned overlap path meta rest (i + 1) (endc - overlap)

/-- `chunking.py` (`DocumentChunker.chunk_document`): empty or
whitespace-only content yields `[]`; otherwise the cleaned content is split
by the (external) sentence splitter and the offset loop assigns ids and
offsets.  `splitter` stands for `SentenceSplitter.split_text`. -/
def chunkDocument (splitter : Str → List Str) (overlap : Int)
    (content path : Str) (meta : FileMetaSnapshot) : List DocumentChunk :=
  if content = [] ∨ pyStrip content = [] then []
  else
    chunkLoop (cleanContent content) overlap path meta
      (splitter (cleanContent content)) 0 0

/-! ## Text extractor (`indexing/extractor.py`) -/

/-- A UTF-8 continuation byte (`0x80–0xbf`). -/
def isCont (b : Nat) : Bool := 0x80 ≤ b && b ≤ 0xbf

/-- Strict UTF-8 decoding of a byte list to characters, as performed by
Python's `utf-8` codec: rejects stray continuation bytes, overlong forms,
surrogates and out-of-range code points.  `none` models
`UnicodeDecodeError`. -/
def utf8Decode? : List Nat → Option Str
  | [] => some []
  | b :: bs =>
    if b < 0x80 then (utf8Decode? bs).map (Char.ofNat b :: ·)
    else if b ≤ 0xc1 then none
    else if b ≤ 0xdf then
      match bs with
      | b2 :: bs2 =>
        if isCont b2 then
          (utf8Decode? bs2).map (Char.ofNat ((b - 0xc0) * 64 + (b2 - 0x80)) :: ·)
        else none
      | [] => none
    else if b ≤ 0xef then
      match bs with
      | b2 :: b3 :: bs3 =>
        if isCont b2 && isCont b3 then
          let cp := (b - 0xe0) * 4096 + (b2 - 0x80) * 64 + (b3 - 0x80)
          if cp < 0x800 || (0xd800 ≤ cp && cp ≤ 0xdfff) then none
          else (utf8Decode? bs3).map (Char.ofNat cp :: ·)
        else none
      | _ => none
    else if b ≤ 0xf4 then
      match bs with
      | b2 :: b3 :: b4 :: bs4 =>
        if isCont b2 && isCont b3 && isCont b4 then
          let cp := (b - 0xf0) * 262144 + (b2 - 0x80) * 4096 + (b3 - 0x80) * 64 + (b4 - 0x80)
          if cp < 0x10000 || 0x10ffff < cp then none
          else (utf8Decode? bs4).map (Char.ofNat cp :: ·)
        else none
      | _ => none
    else none

/-- Python's `latin-1` codec: total, each byte is its code point. -/
def latin1Decode (bs : List Nat) : Str := bs.map Char.ofNat

/-- Python's `iso-8859-1` codec: identical to `latin-1`. -/
def iso88591Decode (bs : List Nat) : Str := latin1Decode bs

/-- One byte of Python's `cp1252` codec: bytes `0x80–0x9f` map through the
Windows-1252 table, five of them (`0x81, 0x8d, 0x8f, 0x90, 0x9d`) are
undefined and raise. -/
def cp1252Byte? (b : Nat) : Option Char :=
  if b = 0x80 then some (Char.ofNat 0x20ac)
  else if b = 0x82 then some (Char.ofNat 0x201a)
  else if b = 0x83 then some (Char.ofNat 0x0192)
  else if b = 0x84 then some (Char.ofNat 0x201e)
  else if b = 0x85 then some (Char.ofNat 0x2026)
  else if b = 0x86 then some (Char.ofNat 0x2020)
  else if b = 0x87 then some (Char.ofNat 0x2021)
  else if b = 0x88 then some (Char.ofNat 0x02c6)
  else if b = 0x89 then some (Char.ofNat 0x2030)
  else if b = 0x8a then some (Char.ofNat 0x0160)
  else if b = 0x8b then some (Char.ofNat 0x2039)
  else if b = 0x8c then some (Char.ofNat 0x0152)
  else if b = 0x8e then some (Char.ofNat 0x017d)
  else if b = 0x91 then some (Char.ofNat 0x2018)
  else if b = 0x92 then some (Char.ofNat 0x2019)
  else if b = 0x93 then some (Char.ofNat 0x201c)
  else if b = 0x94 then some (Char.ofNat 0x201d)
  else if b = 0x95 then some (Char.ofNat 0x2022)
  else if b = 0x96 then some (Char.ofNat 0x2013)
  else if b = 0x97 then some (Char.ofNat 0x2014)
  else if b = 0x98 then some (Char.ofNat 0x02dc)
  else if b = 0x99 then some (Char.ofNat 0x2122)
  else if b = 0x9a then some (Char.ofNat 0x0161)
  else if b = 0x9b then some (Char.ofNat 0x203a)
  else if b = 0x9c then some (Char.ofNat 0x0153)
  else if b = 0x9e then some (Char.ofNat 0x017e)
  else if b = 0x9f then some (Char.ofNat 0x0178)
  else if b = 0x81 || b = 0x8d || b = 0x8f || b = 0x90 || b = 0x9d then none
  else some (Char.ofNat b)

/-- Python's `cp1252` codec over a byte list. -/
def cp1252Decode? (bs : List Nat) : Option Str := bs.mapM cp1252Byte?

/-- UTF-8 decoding with `errors="ignore"`: ill-formed bytes are skipped. -/
def utf8DecodeIgnore : List Nat → Str
  | [] => []
  | b :: bs =>
    if b < 0x80 then Char.ofNat b :: utf8DecodeIgnore bs
    else if b ≤ 0xc1 then utf8DecodeIgnore bs
    else if b ≤ 0xdf then
      match hb : bs with
      | b2 :: bs2 =>
        if isCont b2 then Char.ofNat ((b - 0xc0) * 64 + (b2 - 0x80)) :: utf8DecodeIgnore bs2
        else utf8DecodeIgnore bs
      | [] => []
    else if b ≤ 0xef then
      match hb : bs with
      | b2 :: b3 :: bs3 =>
        if isCont b2 && isCont b3 then
          let cp := (b - 0xe0) * 4096 + (b2 - 0x80) * 64 + (b3 - 0x80)
          if cp < 0x800 || (0xd800 ≤ cp && cp ≤ 0xdfff) then utf8DecodeIgnore bs
          else Char.ofNat cp :: utf8DecodeIgnore bs3
        else utf8DecodeIgnore bs
      | _ => utf8DecodeIgnore bs
    else if b ≤ 0xf4 then
      match hb : bs with
      | b2 :: b3 :: b4 :: bs4 =>
        if isCont b2 && isCont b3 && isCont b4 then
          let cp := (b - 0xf0) * 262144 + (b2 - 0x80) * 4096 + (b3 - 0x80) * 64 + (b4 - 0x80)
          if cp < 0x10000 || 0x10ffff < cp then utf8DecodeIgnore bs
          else Char.ofNat cp :: utf8DecodeIgnore bs4
        else utf8DecodeIgnore bs
      | _ => utf8DecodeIgnore bs
    else utf8DecodeIgnore bs
termination_by l => l.length
decreasing_by all_goals (simp_all [List.length_cons] <;> omega)

/-- UTF-8 decoding with `errors="replace"` (each ill-formed byte yields
U+FFFD); used only to state the spec's fallback wording. -/
def utf8DecodeReplace : List Nat → Str
  | [] => []
  | b :: bs =>
    if b < 0x80 then Char.ofNat b :: utf8DecodeReplace bs
    else if b ≤ 0xc1 then Char.ofNat 0xfffd :: utf8DecodeReplace bs
    else if b ≤ 0xdf then
      match hb : bs with
      | b2 :: bs2 =>
        if isCont b2 then Char.ofNat ((b - 0xc0) * 64 + (b2 - 0x80)) :: utf8DecodeReplace bs2
        else Char.ofNat 0xfffd :: utf8DecodeReplace bs
      | [] => [Char.ofNat 0xfffd]
    else if b ≤ 0xef then
      match hb : bs with
      | b2 :: b3 :: bs3 =>
        if isCont b2 && isCont b3 then
          let cp := (b - 0xe0) * 4096 + (b2 - 0x80) * 64 + (b3 - 0x80)
          if cp < 0x800 || (0xd800 ≤ cp && cp ≤ 0xdfff) then Char.ofNat 0xfffd :: utf8DecodeReplace bs
          else Char.ofNat cp :: utf8DecodeReplace bs3
        else Char.ofNat 0xfffd :: utf8DecodeReplace bs
      | _ => Char.ofNat 0xfffd :: utf8DecodeReplace bs
    else if b ≤ 0xf4 then
      match hb : bs with
      | b2 :: b3 :: b4 :: bs4 =>
        if isCont b2 && isCont b3 && isCont b4 then
          let cp := (b - 0xf0) * 262144 + (b2 - 0x80) * 4096 + (b3 - 0x80) * 64 + (b4 - 0x80)
          if cp < 0x10000 || 0x10ffff < cp then Char.ofNat 0xfffd :: utf8DecodeReplace bs
          else Char.ofNat cp :: utf8DecodeReplace bs4
        else Char.ofNat 0xfffd :: utf8DecodeReplace bs
      | _ => Char.ofNat 0xfffd :: utf8DecodeReplace bs
    else Char.ofNat 0xfffd :: utf8DecodeReplace bs
termination_by l => l.length
decreasing_by all_goals (simp_all [List.length_cons] <;> omega)

/-- `extractor.py` (`_extract_text_file`): the 1 MiB size limit —
`content[: 1024 * 1024] + "... [truncated]"` when over the limit. -/
def pyTruncate1MiB (s : Str) : Str :=
  if s.length > 1024 * 1024 then s.take (1024 * 1024) ++ "... [truncated]".toList
  else s

/-- `extractor.py` (`_extract_text_file`): the encodings tried, in order:
`["utf-8", "latin-1", "cp1252", "iso-8859-1"]`. -/
def encodingsTried : List (List Nat → Option Str) :=
  [utf8Decode?, fun bs => some (latin1Decode bs), cp1252Decode?,
   fun bs => some (iso88591Decode bs)]

/-- The first decoder in the list that does not raise. -/
def firstSuccessful : List (List Nat → Option Str) → List Nat → Option Str
  | [], _ => none
  | e :: es, bs =>
    match e bs with
    | some s => some s
    | none => firstSuccessful es bs

/-- `extractor.py` (`TextExtractor._extract_text_file`): try the encodings
in order, truncating the decoded text at 1 MiB; if every encoding raises,
decode as UTF-8 with `errors="ignore"` (and truncate likewise). -/
def extractTextFile (bs : List Nat) : Str :=
  match firstSuccessful encodingsTried bs with
  | some s => pyTruncate1MiB s
  | none => pyTruncate1MiB (utf8DecodeIgnore bs)

/-- A Python value that is either a list of strings or some other value
rendered by `str(...)` — the two branches of the notebook parser's
`isinstance(source, list)` checks. -/
inductive StrOrList where
  | str : Str → StrOrList
  | list : List Str → StrOrList
  deriving Repr, DecidableEq

/-- `"".join(source)` when a list, `str(source)` otherwise. -/
def joinSource : StrOrList → Str
  | .str s => s
  | .list ls => ls.flatten

/-- One output of a notebook code cell. -/
structure NbOutput where
  output_type : Str
  text : StrOrList
  deriving Repr, DecidableEq

/-- One notebook cell. -/
structure NbCell where
  cell_type : Str
  source : StrOrList
  outputs : List NbOutput
  deriving Repr, DecidableEq

/-- A parsed `.ipynb` JSON document (its `cells` entry). -/
structure Notebook where
  cells : List NbCell
  deriving Repr, DecidableEq

/-- `extractor.py` (`TextExtractor._extract_jupyter_notebook`): markdown
and code cells contribute their `source` followed by `"\n\n"`; each
`stream` output of a code cell contributes its `text` followed by `"\n"`;
the result is stripped. -/
def extractJupyter (nb : Notebook) : Str :=
  pyStrip (nb.cells.foldl (fun acc cell =>
    if cell.cell_type = "markdown".toList then
      acc ++ joinSource cell.source ++ "\n\n".toList
    else if cell.cell_type = "code".toList then
      cell.outputs.foldl (fun a o =>
        if o.output_type = "stream".toList then a ++ joinSource o.text ++ "\n".toList
        else a) (acc ++ joinSource cell.source ++ "\n\n".toList)
    else acc) [])

/-- The observable inputs of one `TextExtractor.extract_text` call:
the sniffed media type (`none` models a raised error in
`magic.from_file`), availability of the optional format parsers, the
outcome of each format parser's guarded body (`none` models an exception
caught inside the parser), the raw bytes for the byte decoder, and the
parsed notebook (`none` models a read/JSON failure). -/
structure ExtractionWorld where
  detectedMime : Option Str
  pdfAvailable : Bool
  docxAvailable : Bool
  xlsxAvailable : Bool
  pptxAvailable : Bool
  pdfParse : Option Str
  docxParse : Option Str
  xlsxParse : Option Str
  pptxParse : Option Str
  fileBytes : List Nat
  notebook : Option Notebook
  deriving Repr

/-- Media-type constants used by the dispatch chain. -/
def pdfMime : Str := "application/pdf".toList

def docxMime : Str :=
  "application/vnd.openxmlformats-officedocument.wordprocessingml.document".toList

def xlsxMime : Str :=
  "application/vnd.openxmlformats-officedocument.spreadsheetml.sheet".toList

def pptxMime : Str :=
  "application/vnd.openxmlformats-officedocument.presentationml.presentation".toList

/-- `extractor.py` (`TextExtractor.extract_text`): sniff the media type,
dispatch down the `elif` chain, and catch every escaped exception as
`("", "unknown")`.  A missing optional dependency raises `ImportError`
before the format parser's internal `try`, so it is caught by the outer
handler.  A parser failure inside the guarded body returns `""`, giving
`("", mime_type)`. -/
def extractText (w : ExtractionWorld) (path : Str) : Str × Str :=
  match w.detectedMime with
  | none => ([], "unknown".toList)
  | some mime =>
    if mime = pdfMime then
      if w.pdfAvailable then (w.pdfParse.getD [], mime) else ([], "unknown".toList)
    else if mime = docxMime then
      if w.docxAvailable then (w.docxParse.getD [], mime) else ([], "unknown".toList)
    else if mime = xlsxMime then
      if w.xlsxAvailable then (w.xlsxParse.getD [], mime) else ([], "unknown".toList)
    else if mime = pptxMime then
      if w.pptxAvailable then (w.pptxParse.getD [], mime) else ([], "unknown".toList)
    else if "text/".toList.isPrefixOf mime then (extractTextFile w.fileBytes, mime)
    else if mime = "application/javascript".toList ∨ mime = "application/json".toList then
      (extractTextFile w.fileBytes, mime)
    else if ".ipynb".toList.isSuffixOf path then
      (match w.notebook with
       | none => []
       | some nb => extractJupyter nb, mime)
    else ([], mime)

/-- The notebook text described by the (amended) specification: each
markdown or code cell contributes its joined `source` followed by a blank
line; each `stream` output of a code cell contributes its joined `text`
followed by a single newline; the concatenation is stripped. -/
def notebookSpec (nb : Notebook) : Str :=
  pyStrip ((nb.cells.map (fun cell =>
    if cell.cell_type = "markdown".toList ∨ cell.cell_type = "code".toList then
      joinSource cell.source ++ "\n\n".toList ++
        (if cell.cell_type = "code".toList then
          ((cell.outputs.filter (fun o => o.output_type = "stream".toList)).map
            (fun o => joinSource o.text ++ "\n".toList)).flatten
         else [])
    else [])).flatten)

/-! ## Hybrid search (`search/hybrid_search.py`) -/

/-- `hybrid_search.py` (`SearchResult`): unified search result.  Scores are
modelled as exact rationals. -/
structure SearchResult where
  path : Str
  filename : Str
  file_type : Str
  extension : Str
  size : Int
  modified_time : Str
  keyword_score : ℚ := 0
  keyword_rank : Nat := 0
  semantic_score : ℚ := 0
  semantic_rank : Nat := 0
  chunk_text : Option Str := none
  chunk_id : Option Str := none
  combined_score : ℚ := 0
  search_type : Str := "hybrid".toList
  deriving Repr, DecidableEq, Inhabited

/-- A raw hit from the Whoosh keyword searcher (the dict built by
`WhooshIndexer.search`). -/
structure KwHit where
  path : Str
  filename : Str
  extension : Str
  file_type : Str
  mime_type : Str
  size : Int
  modified_time : Str
  created_time : Str
  indexed_time : Str
  score : ℚ
  deriving Repr, DecidableEq, Inhabited

/-- A raw hit from `VectorDatabase.similarity_search` (chunk id, text,
score, source path and the optional `file_metadata` part of the
chunk-metadata row). -/
structure SemHit where
  chunk_id : Str
  text : Str
  score : ℚ
  source_path : Str
  file_metadata : Option FileMetaSnapshot
  deriving Repr, DecidableEq, Inhabited

/-- Python `path.split("/")[-1]`. -/
def lastSlashComponent (s : Str) : Str := (s.splitOn '/').getLastD []

/-- The body of `_keyword_search_only`'s `enumerate` loop, carried out
from index `i`. -/
def keywordSearchOnlyAux (i : Nat) : List KwHit → List SearchResult
  | [] => []
  | r :: rest =>
    { path := r.path
      filename := r.filename
      file_type := r.file_type
      extension := r.extension
      size := r.size
      modified_time := r.modified_time
      keyword_score := r.score
      keyword_rank := i + 1
      combined_score := r.score
      search_type := "keyword".toList } :: keywordSearchOnlyAux (i + 1) rest

/-- `hybrid_search.py` (`HybridSearchManager._keyword_search_only`):
wrap each keyword hit, rank `i+1`, `combined_score = score`,
`search_type = "keyword"`. -/
def keywordSearchOnly (hits : List KwHit) : List SearchResult :=
  keywordSearchOnlyAux 0 hits

/-- The body of `_semantic_search_only`'s `enumerate` loop, carried out
from index `i`. -/
def semanticSearchOnlyAux (i : Nat) : List SemHit → List SearchResult
  | [] => []
  | r :: rest =>
    { path := r.source_path
      filename := lastSlashComponent r.source_path
      file_type := (r.file_metadata.map (·.file_type)).getD "unknown".toList
      extension := (r.file_metadata.map (·.extension)).getD []
      size := (r.file_metadata.map (·.size)).getD 0
      modified_time := (r.file_metadata.map (·.modified_time)).getD []
      semantic_score := r.score
      semantic_rank := i + 1
      chunk_text := some r.text
      chunk_id := some r.chunk_id
      combined_score := r.score
      search_type := "semantic".toList } :: semanticSearchOnlyAux (i + 1) rest

/-- `hybrid_search.py` (`HybridSearchManager._semantic_search_only`):
wrap each vector hit, deriving the filename from the path and the file
fields from the optional metadata (with the `.get` defaults of the code),
rank `i+1`, `combined_score = score`, `search_type = "semantic"`. -/
def semanticSearchOnly (hits : List SemHit) : List SearchResult :=
  semanticSearchOnlyAux 0 hits

/-- Insertion into the insertion-ordered `results_map` dictionary:
an existing key keeps its position and gets the new value, a fresh key is
appended. -/
def dictInsert (m : List (Str × SearchResult)) (k : Str) (v : SearchResult) :
    List (Str × SearchResult) :=
  if m.any (fun p => p.1 = k) then
    m.map (fun p => if p.1 = k then (k, v) else p)
  else m ++ [(k, v)]

/-- `hybrid_search.py` (`_combine_search_results`), semantic loop body:
a path already in the map gets the semantic fields overlaid,
`search_type = "hybrid"` and the weighted combined score; a fresh path is
appended as a semantic-only result with `combined = w_s · semantic_score`. -/
def mergeSemantic (wk ws : ℚ) (m : List (Str × SearchResult))
    (s : SearchResult) : List (Str × SearchResult) :=
  if m.any (fun p => p.1 = s.path) then
    m.map (fun p => if p.1 = s.path then
      (p.1, { p.2 with
        semantic_score := s.semantic_score
        semantic_rank := s.semantic_rank
        chunk_text := s.chunk_text
        chunk_id := s.chunk_id
        search_type := "hybrid".toList
        combined_score := wk * p.2.keyword_score + ws * s.semantic_score })
      else p)
  else
    m ++ [(s.path, { s with
      search_type := "semantic".toList
      combined_score := ws * s.semantic_score })]

/-- The descending-by-`combined_score` comparison of the final
`combined_results.sort(key=..., reverse=True)`. -/
def combinedDesc (a b : SearchResult) : Bool :=
  decide (b.combined_score ≤ a.combined_score)

/-- The values of `results_map` before the final sort: keyword results in
keyword order (the insertion phase), then semantic-only results in
semantic order (appended by the merge phase). -/
def mergedValues (kw sem : List SearchResult) (wk ws : ℚ) :
    List SearchResult :=
  ((sem.foldl (mergeSemantic wk ws)
    (kw.foldl (fun m r => dictInsert m r.path r) [])).map Prod.snd)

/-- `hybrid_search.py` (`HybridSearchManager._combine_search_results`):
keyword results fill the map first, semantic results are merged in, and
the values are stably sorted by combined score descending (Python's
`list.sort` is stable; `List.mergeSort` is extensionally the same stable
sort). -/
def combineSearchResults (kw sem : List SearchResult) (wk ws : ℚ) :
    List SearchResult :=
  (mergedValues kw sem wk ws).mergeSort combinedDesc

/-- `hybrid_search.py` (`_hybrid_search`), weight normalization: divide by
the total when positive, else default to `0.6 / 0.4`. -/
def normalizeWeights (wk ws : ℚ) : ℚ × ℚ :=
  if wk + ws > 0 then (wk / (wk + ws), ws / (wk + ws)) else (3/5, 2/5)

/-- `hybrid_search.py` (`HybridSearchManager._hybrid_search`): normalize
the weights, fetch from both backends (modelled as the input hit lists;
an unavailable vector index is the empty semantic list), combine, and
return the first `limit` results. -/
def hybridSearch (kwHits : List KwHit) (semHits : List SemHit)
    (limit : Nat) (keyword_weight semantic_weight : ℚ) : List SearchResult :=
  let nw := normalizeWeights keyword_weight semantic_weight
  (combineSearchResults (keywordSearchOnly kwHits) (semanticSearchOnly semHits)
    nw.1 nw.2).take limit

/-- Alignment invariant of the merge phase when the (normalized) weights
are `(1, 0)`: positions below `A.length` of the map still hold the
keyword results' ranks and scores with `combined = keyword_score`, and
every appended position holds a semantic-only entry with zero keyword
rank, keyword score and combined score. -/
def kwAligned (A : List SearchResult) (m : List (Str × SearchResult)) : Prop :=
  A.length ≤ m.length ∧
  (∀ i, i < A.length →
    (m.getD i default).2.keyword_rank = (A.getD i default).keyword_rank ∧
    (m.getD i default).2.keyword_score = (A.getD i default).keyword_score ∧
    (m.getD i default).2.combined_score = (A.getD i default).keyword_score) ∧
  (∀ j, A.length ≤ j → j < m.length →
    (m.getD j default).2.keyword_rank = 0 ∧
    (m.getD j default).2.keyword_score = 0 ∧
    (m.getD j default).2.combined_score = 0)

/-- The per-result score law preserved by the semantic merge phase:
non-keyword results carry the weighted sum, keyword-only results keep
their raw keyword score. -/
def scoreLaw (wk ws : ℚ) (r : SearchResult) : Prop :=
  (r.search_type ≠ "keyword".toList →
    r.combined_score = wk * r.keyword_score + ws * r.semantic_score) ∧
  (r.search_type = "keyword".toList → r.combined_score = r.keyword_score)

/-! ## Jobs and the indexing queue (`indexing/models.py`, `indexing/manager.py`) -/

/-- `models.py` (`IndexingPriority`): priority levels with their values. -/
inductive IndexingPriority where
  | immediate
  | high
  | normal
  | low
  deriving Repr, DecidableEq

/-- The enum values `IMMEDIATE = 0, HIGH = 1, NORMAL = 2, LOW = 3`. -/
def IndexingPriority.value : IndexingPriority → Nat
  | .immediate => 0
  | .high => 1
  | .normal => 2
  | .low => 3

/-- `models.py` (`IndexingJob`): a file indexing job; the enqueue
timestamp is modelled as an integer tick. -/
structure IndexingJob where
  file_path : Str
  priority : IndexingPriority
  operation : Str
  timestamp : Int
  deriving Repr, DecidableEq

/-- `models.py` (`IndexingJob.__lt__`): compares only the priority
values — the timestamp is ignored. -/
def jobLt (a b : IndexingJob) : Bool := a.priority.value < b.priority.value

/-- `manager.py` line 36: `asyncio.Queue(maxsize=10000)` — a plain FIFO
channel.  `put` appends at the back. -/
def fifoPut (q : List IndexingJob) (j : IndexingJob) : List IndexingJob := q ++ [j]

/-- `asyncio.Queue.get`: removes and returns the front element. -/
def fifoGet? (q : List IndexingJob) : Option (IndexingJob × List IndexingJob) :=
  match q with
  | [] => none
  | j :: rest => some (j, rest)

/-- `manager.py` (`process_queue`): jobs are dispatched by repeatedly
calling `get` on the queue, front to back. -/
def dispatchOrder : List IndexingJob → List IndexingJob
  | [] => []
  | j :: rest => j :: dispatchOrder rest

/-! ## Keyword index (`indexing/indexer.py`) -/

/-- A document stored in the Whoosh index (schema of `WhooshIndexer`). -/
structure KeywordDoc where
  path : Str
  filename : Str
  content : Str
  extension : Str
  file_type : Str
  mime_type : Str
  size : Int
  modified_time : Str
  created_time : Str
  content_hash : Option Str
  indexed_time : Str
  deriving Repr, DecidableEq

/-- `indexer.py` (`WhooshIndexer.delete_document`):
`writer.delete_by_term("path", file_path)` removes every document whose
`path` equals the argument and returns the number removed; the method
returns `deleted > 0`. -/
def delete_document (ix : List KeywordDoc) (file_path : Str) :
    List KeywordDoc × Bool :=
  let deleted := (ix.filter (fun d => d.path = file_path)).length
  (ix.filter (fun d => ¬ d.path = file_path), deleted > 0)

/-! ## Vector database (`ai/embedding_db.py`) -/

/-- A row of the SQLite `chunk_metadata` table (primary key `chunk_id`). -/
structure ChunkRow where
  chunk_id : Str
  source_path : Str
  chunk_index : Nat
  start_char : Int
  end_char : Int
  text_preview : Str
  file_metadata : FileMetaSnapshot
  embedding_model : Str
  deriving Repr, DecidableEq

/-- An entry of the llama-index vector store, as built by
`DocumentChunk.to_llama_document`: document id, text, and the metadata
carrying the source path and offsets. -/
structure VectorDoc where
  id : Str
  text : Str
  source_path : Str
  chunk_index : Nat
  start_char : Int
  end_char : Int
  metadata : FileMetaSnapshot
  deriving Repr, DecidableEq

/-- The two persistent stores of `VectorDatabase` sharing one directory. -/
structure VectorDBState where
  vecStore : List VectorDoc
  metaStore : List ChunkRow
  deriving Repr, DecidableEq

def emptyVectorDB : VectorDBState := { vecStore := [], metaStore := [] }

/-- `chunking.py` (`DocumentChunk.to_llama_document`). -/
def toVectorDoc (c : DocumentChunk) : VectorDoc :=
  { id := c.chunk_id
    text := c.text
    source_path := c.source_path
    chunk_index := c.chunk_index
    start_char := c.start_char
    end_char := c.end_char
    metadata := c.metadata }

/-- `embedding_db.py` (`_store_chunk_metadata`): the 200-character text
preview. -/
def pyPreview (t : Str) : Str :=
  if t.length > 200 then t.take 200 ++ "...".toList else t

/-- The `chunk_metadata` row written by `_store_chunk_metadata`. -/
def toChunkRow (model : Str) (c : DocumentChunk) : ChunkRow :=
  { chunk_id := c.chunk_id
    source_path := c.source_path
    chunk_index := c.chunk_index
    start_char := c.start_char
    end_char := c.end_char
    text_preview := pyPreview c.text
    file_metadata := c.metadata
    embedding_model := model }

/-- `INSERT OR REPLACE INTO chunk_metadata`: an existing `chunk_id` row
is replaced in place, a fresh one is appended. -/
def storeChunkMetadata (meta : List ChunkRow) (row : ChunkRow) : List ChunkRow :=
  if meta.any (fun r => r.chunk_id = row.chunk_id) then
    meta.map (fun r => if r.chunk_id = row.chunk_id then row else r)
  else meta ++ [row]

/-- `embedding_db.py` (`VectorDatabase.add_chunks`), successful path: an
empty list is a no-op returning `True`; otherwise every chunk is inserted
into the vector index and its metadata row is stored. -/
def add_chunks (s : VectorDBState) (chunks : List DocumentChunk)
    (model : Str) : VectorDBState × Bool :=
  if chunks = [] then (s, true)
  else
    ({ vecStore := s.vecStore ++ chunks.map toVectorDoc
       metaStore := chunks.foldl (fun m c => storeChunkMetadata m (toChunkRow model c))
         s.metaStore }, true)

/-- `embedding_db.py` (`VectorDatabase.delete_document_chunks`),
successful path: look up the chunk ids recorded for `source_path`; with
none, return `True` leaving both stores untouched; otherwise delete
those ids from the vector index, delete the rows by `source_path`, and
return `True`. -/
def delete_document_chunks (s : VectorDBState) (source_path : Str) :
    VectorDBState × Bool :=
  let chunk_ids := (s.metaStore.filter
    (fun r => r.source_path = source_path)).map (fun r => r.chunk_id)
  if chunk_ids = [] then (s, true)
  else
    ({ vecStore := s.vecStore.filter (fun d => ¬ d.id ∈ chunk_ids)
       metaStore := s.metaStore.filter (fun r => ¬ r.source_path = source_path) },
     true)

/-- A node returned by the llama-index retriever inside
`similarity_search`. -/
structure RetrievedNode where
  id : Str
  text : Str
  score : ℚ
  source_path : Str
  chunk_index : Nat
  start_char : Int
  end_char : Int
  deriving Repr, DecidableEq

/-- The `similarity_top_k` / `similarity_threshold` part of
`EmbeddingConfig`. -/
structure SimilarityConfig where
  similarity_top_k : Nat
  similarity_threshold : ℚ
  deriving Repr, DecidableEq

/-- Python `top_k or self.config.similarity_top_k`: both `None` and `0`
are falsy and select the default. -/
def pyOrNat : Option Nat → Nat → Nat
  | none, d => d
  | some k, d => if k = 0 then d else k

/-- Python `threshold or self.config.similarity_threshold`: both `None`
and `0.0` are falsy and select the default. -/
def pyOrRat : Option ℚ → ℚ → ℚ
  | none, d => d
  | some t, d => if t = 0 then d else t

/-- `embedding_db.py` (`VectorDatabase.similarity_search`): resolve the
effective `top_k` and `threshold` with `or`-defaulting, retrieve the top
nodes (the query engine is external, modelled by `retrieve`), and keep
those with `score ≥ threshold`. -/
def similarity_search (retrieve : Nat → List RetrievedNode)
    (cfg : SimilarityConfig) (top_k : Option Nat) (threshold : Option ℚ) :
    List RetrievedNode :=
  let k := pyOrNat top_k cfg.similarity_top_k
  let θ := pyOrRat threshold cfg.similarity_threshold
  (retrieve k).filter (fun n => θ ≤ n.score)

/-! ## Vector-index maintenance over add/update/delete
(`indexing/enhanced_manager.py`) -/

/-- One completed per-path operation as processed by
`EnhancedIndexingManager`: a create/update carrying the extracted
content and metadata snapshot, or a delete. -/
inductive IndexOp where
  | addUpd (path : Str) (content : Str) (meta : FileMetaSnapshot)
  | del (path : Str)
  deriving Repr

/-- `enhanced_manager.py` (`process_file` /
`_process_file_enhanced`), vector-index part, successful path: a delete
calls `delete_document_chunks`; a create/update with truthy stripped
content deletes the existing chunks, re-chunks, and adds the new chunks
when any; empty extracted content leaves the vector stores untouched. -/
def processVectorStep (splitter : Str → List Str) (overlap : Int)
    (model : Str) (s : VectorDBState) : IndexOp → VectorDBState
  | .del p => (delete_document_chunks s p).1
  | .addUpd p content meta =>
    if content ≠ [] ∧ pyStrip content ≠ [] then
      let s1 := (delete_document_chunks s p).1
      let chunks := chunkDocument splitter overlap content p meta
      if chunks ≠ [] then (add_chunks s1 chunks model).1 else s1
    else s

/-- A sequence of completed operations applied to the vector database. -/
def runOps (splitter : Str → List Str) (overlap : Int) (model : Str)
    (s : VectorDBState) (ops : List IndexOp) : VectorDBState :=
  ops.foldl (processVectorStep splitter overlap model) s

/-- The chunks the (amended) specification expects to observe for path
`P`: the output of the last successful chunking of `P`, cleared by a
delete of `P`, and unchanged by operations on other paths or by
adds/updates of `P` whose extracted content is empty. -/
def expectedStep (splitter : Str → List Str) (overlap : Int) (P : Str)
    (acc : List DocumentChunk) : IndexOp → List DocumentChunk
  | .del p => if p = P then [] else acc
  | .addUpd p content meta =>
    if p = P ∧ content ≠ [] ∧ pyStrip content ≠ [] then
      chunkDocument splitter overlap content p meta
    else acc

def expectedChunks (splitter : Str → List Str) (overlap : Int) (P : Str)
    (ops : List IndexOp) : List DocumentChunk :=
  ops.foldl (expectedStep splitter overlap P) []

/-- Abstraction relation between the vector-database state and a per-path
table `E` of expected chunks: every table entry is well formed (its source
path is recorded and its id is derived from path and index), ids are
distinct per path, and each store holds exactly the table's rows for every
path. -/
def vdbInv (model : Str) (s : VectorDBState) (E : Str → List DocumentChunk) : Prop :=
  (∀ P c, c ∈ E P → c.source_path = P ∧ c.chunk_id = mkChunkId P c.chunk_index) ∧
  (∀ P, ((E P).map (fun c => c.chunk_id)).Nodup) ∧
  (∀ P, s.metaStore.filter (fun r => r.source_path = P)
    = (E P).map (toChunkRow model)) ∧
  (∀ P, s.vecStore.filter (fun d => d.source_path = P)
    = (E P).map toVectorDoc)

/-! ## Basic facts about `pyFind` and the chunk loop -/

theorem pyFindFrom_ge (s sub : Str) :
    ∀ fuel i, pyFindFrom s sub i fuel ≠ -1 → (i : Int) ≤ pyFindFrom s sub i fuel := by
  intro fuel
  induction fuel with
  | zero => intro i h; simp [pyFindFrom] at h
  | succ n ih =>
    intro i h
    simp only [pyFindFrom] at h ⊢
    by_cases hp : sub.isPrefixOf (s.drop i)
    · simp [hp]
    · simp only [hp, if_false] at h ⊢
      have := ih (i + 1) h
      omega

theorem pyFind_ge (s sub : Str) (start : Int) (h : pyFind s sub start ≠ -1) :
    start ≤ pyFind s sub start := by
  unfold pyFind at h ⊢
  by_cases hc : (if start < 0 then (max ((s.length : Int) + start) 0).toNat
      else start.toNat) > s.length
  · simp only [hc, if_true] at h; exact absurd rfl h
  · simp only [hc, if_false] at h ⊢
    have hge := pyFindFrom_ge s sub _ _ h
    by_cases hs : start < 0
    · simp only [hs, if_true] at hge ⊢
      omega
    · simp only [hs, if_false] at hge ⊢
      omega

/-- The first chunk emitted by the loop starts at or after the cursor. -/
theorem chunkLoop_head_start (cleaned : Str) (overlap : Int) (path : Str)
    (meta : FileMetaSnapshot) :
    ∀ segs i pos, segs ≠ [] →
      pos ≤ ((chunkLoop cleaned overlap path meta segs i pos).getD 0 default).start_char := by
  intro segs i pos hne
  cases segs with
  | nil => exact absurd rfl hne
  | cons seg rest =>
    simp only [chunkLoop, List.getD_cons_zero]
    by_cases hf : pyFind cleaned seg pos = -1
    · simp [hf]
    · simp only [hf, if_false]
      exact pyFind_ge cleaned seg pos hf

theorem chunkLoop_length (cleaned : Str) (overlap : Int) (path : Str)
    (meta : FileMetaSnapshot) :
    ∀ segs i pos, (chunkLoop cleaned overlap path meta segs i pos).length = segs.length := by
  intro segs
  induction segs with
  | nil => intro i pos; simp [chunkLoop]
  | cons seg rest ih => intro i pos; simp [chunkLoop, ih]

/-- Adjacent chunks emitted by the offset loop respect the overlap bound. -/
theorem chunkLoop_adjacent (cleaned : Str) (overlap : Int) (path : Str)
    (meta : FileMetaSnapshot) :
    ∀ segs i pos j, j + 1 < segs.length →
      ((chunkLoop cleaned overlap path meta segs i pos).getD j default).end_char - overlap ≤
        ((chunkLoop cleaned overlap path meta segs i pos).getD (j + 1) default).start_char := by
  intro segs
  induction segs with
  | nil => intro i pos j h; simp at h
  | cons seg rest ih =>
    intro i pos j h
    cases j with
    | zero =>
      have hrest : rest ≠ [] := by
        intro hr; rw [hr] at h; simp at h
      simp only [chunkLoop, List.getD_cons_zero, List.getD_cons_succ]
      exact chunkLoop_head_start cleaned overlap path meta rest (i + 1) _ hrest
    | succ k =>
      simp only [chunkLoop, List.getD_cons_succ]
      exact ih (i + 1) _ k (by simpa using h)

/-- Each chunk's `end_char` is its `start_char` plus its segment's length. -/
theorem chunkLoop_end_char (cleaned : Str) (overlap : Int) (path : Str)
    (meta : FileMetaSnapshot) :
    ∀ segs i pos j, j < segs.length →
      ((chunkLoop cleaned overlap path meta segs i pos).getD j default).end_char =
        ((chunkLoop cleaned overlap path meta segs i pos).getD j default).start_char +
          ((segs.getD j []).length : Int) := by
  intro segs
  induction segs with
  | nil => intro i pos j h; simp at h
  | cons seg rest ih =>
    intro i pos j h
    cases j with
    | zero => simp [chunkLoop]
    | succ k =>
      simp only [chunkLoop, List.getD_cons_succ]
      exact ih (i + 1) _ k (by simpa using h)

/-- C8: for consecutive chunks of one document,
`chunks[i+1].start_char ≥ chunks[i].end_char − chunk_overlap`, with
`end_char = start_char + len(segment)` and the chunk count equal to the
segment count.  Quantified over every splitter output, so it covers the
external sentence splitter. -/
theorem chunker_overlap_invariant (splitter : Str → List Str) (overlap : Int)
    (content path : Str) (meta : FileMetaSnapshot) (j : Nat)
    (h : j + 1 < (chunkDocument splitter overlap content path meta).length) :
    ((chunkDocument splitter overlap content path meta).getD j default).end_char - overlap ≤
      ((chunkDocument splitter overlap content path meta).getD (j + 1) default).start_char ∧
    (chunkDocument splitter overlap content path meta).length =
      (splitter (cleanContent content)).length ∧
    ((chunkDocument splitter overlap content path meta).getD j default).end_char =
      ((chunkDocument splitter overlap content path meta).getD j default).start_char +
        (((splitter (cleanContent content)).getD j []).length : Int) := by
  by_cases hc : content = [] ∨ pyStrip content = []
  · rw [chunkDocument, if_pos hc] at h
    simp at h
  · rw [chunkDocument, if_neg hc] at h ⊢
    have hlen := chunkLoop_length (cleanContent content) overlap path meta
      (splitter (cleanContent content)) 0 0
    refine ⟨?_, hlen, ?_⟩
    · exact chunkLoop_adjacent (cleanContent content) overlap path meta _ 0 0 j
        (by rw [hlen] at h; exact h)
    · exact chunkLoop_end_char (cleanContent content) overlap path meta _ 0 0 j
        (by rw [hlen] at h; omega)

/-- Witness for `chunker_overlap_invariant`: a splitter that cuts
`"alpha beta gamma"` into two overlapping segments. -/
theorem chunker_overlap_invariant_witness :
    0 + 1 < (chunkDocument
        (fun _ => ["alpha beta".toList, "beta gamma".toList]) 5
        "alpha beta gamma".toList "doc.txt".toList default).length ∧
      ((chunkDocument (fun _ => ["alpha beta".toList, "beta gamma".toList]) 5
        "alpha beta gamma".toList "doc.txt".toList default).getD 0 default).end_char - 5 ≤
      ((chunkDocument (fun _ => ["alpha beta".toList, "beta gamma".toList]) 5
        "alpha beta gamma".toList "doc.txt".toList default).getD 1 default).start_char := by
  constructor
  · decide
  · exact (chunker_overlap_invariant
      (fun _ => ["alpha beta".toList, "beta gamma".toList]) 5
      "alpha beta gamma".toList "doc.txt".toList default 0 (by decide)).1

/-! ## Extractor theorems -/

/-- The encoding loop can never exhaust all four encodings: the second
entry (`latin-1`) decodes every byte string. -/
theorem firstSuccessful_encodings_ne_none (bs : List Nat) :
    firstSuccessful encodingsTried bs ≠ none := by
  cases hu : utf8Decode? bs <;>
    simp [firstSuccessful, encodingsTried, hu]

/-- C6: the byte decoder tries `utf-8` first and `latin-1` second (the
later encodings and the `errors="ignore"` fallback are unreachable because
`latin-1` is total); if all four encodings failed the result would be the
UTF-8 `errors` fallback; decoded text longer than 1 MiB is cut at 1 MiB
with the `"... [truncated]"` marker appended, and shorter text is kept
as is. -/
theorem byte_decoder_policy :
    (∀ bs s, utf8Decode? bs = some s → extractTextFile bs = pyTruncate1MiB s) ∧
    (∀ bs, utf8Decode? bs = none →
      extractTextFile bs = pyTruncate1MiB (latin1Decode bs)) ∧
    (∀ bs, firstSuccessful encodingsTried bs = none →
      extractTextFile bs = pyTruncate1MiB (utf8DecodeReplace bs)) ∧
    (∀ s : Str, 1024 * 1024 < s.length →
      pyTruncate1MiB s = s.take (1024 * 1024) ++ "... [truncated]".toList) ∧
    (∀ s : Str, s.length ≤ 1024 * 1024 → pyTruncate1MiB s = s) := by
  refine ⟨?_, ?_, ?_, ?_, ?_⟩
  · intro bs s h
    simp [extractTextFile, firstSuccessful, encodingsTried, h]
  · intro bs h
    simp [extractTextFile, firstSuccessful, encodingsTried, h]
  · intro bs h
    exact absurd h (firstSuccessful_encodings_ne_none bs)
  · intro s h
    simp [pyTruncate1MiB, h]
  · intro s h
    rw [pyTruncate1MiB, if_neg (by omega)]

/-- Witness for `byte_decoder_policy` at concrete inputs: pure ASCII
decodes as UTF-8, the lone byte `0xff` falls through to `latin-1`, and a
string one character over the limit is truncated with the marker. -/
theorem byte_decoder_policy_witness :
    (utf8Decode? [65] = some ['A'] ∧ extractTextFile [65] = pyTruncate1MiB ['A']) ∧
    (utf8Decode? [255] = none ∧
      extractTextFile [255] = pyTruncate1MiB (latin1Decode [255])) ∧
    pyTruncate1MiB (List.replicate (1024 * 1024 + 1) 'a') =
      (List.replicate (1024 * 1024 + 1) 'a').take (1024 * 1024) ++
        "... [truncated]".toList ∧
    pyTruncate1MiB ['b'] = ['b'] :=
  ⟨⟨by decide, byte_decoder_policy.1 [65] ['A'] (by decide)⟩,
   ⟨by decide, byte_decoder_policy.2.1 [255] (by decide)⟩,
   byte_decoder_policy.2.2.2.1 _ (by rw [List.length_replicate]; omega),
   byte_decoder_policy.2.2.2.2 ['b'] (by rw [List.length_singleton]; omega)⟩

/-- C4 counterexample: a PDF file while `PyPDF2` is missing.  The
`ImportError` raised before the parser's internal `try` is caught by the
outer handler of `extract_text`, which returns `("", "unknown")` — not
`("", media_type)` as the claim states. -/
theorem extract_missing_parser_counterexample :
    extractText
      { detectedMime := some pdfMime, pdfAvailable := false,
        docxAvailable := true, xlsxAvailable := true, pptxAvailable := true,
        pdfParse := none, docxParse := none, xlsxParse := none,
        pptxParse := none, fileBytes := [], notebook := none }
      "a.pdf".toList = ([], "unknown".toList) ∧
    "unknown".toList ≠ pdfMime := by
  exact ⟨by decide, by decide⟩

/-- C4 (amended): `extract_text` never throws; a failure inside an
available format parser yields `("", media_type)`; but a missing optional
parser — like a failing media-type detection — yields `("", "unknown")`,
the media type being replaced by `"unknown"`. -/
theorem extract_error_semantics (w : ExtractionWorld) (path : Str) :
    (w.detectedMime = none → extractText w path = ([], "unknown".toList)) ∧
    (w.detectedMime = some pdfMime →
      (w.pdfAvailable = true → w.pdfParse = none →
        extractText w path = ([], pdfMime)) ∧
      (w.pdfAvailable = false → extractText w path = ([], "unknown".toList))) ∧
    (w.detectedMime = some docxMime →
      (w.docxAvailable = true → w.docxParse = none →
        extractText w path = ([], docxMime)) ∧
      (w.docxAvailable = false → extractText w path = ([], "unknown".toList))) ∧
    (w.detectedMime = some xlsxMime →
      (w.xlsxAvailable = true → w.xlsxParse = none →
        extractText w path = ([], xlsxMime)) ∧
      (w.xlsxAvailable = false → extractText w path = ([], "unknown".toList))) ∧
    (w.detectedMime = some pptxMime →
      (w.pptxAvailable = true → w.pptxParse = none →
        extractText w path = ([], pptxMime)) ∧
      (w.pptxAvailable = false → extractText w path = ([], "unknown".toList))) := by
  refine ⟨?_, ?_, ?_, ?_, ?_⟩
  · intro h
    simp [extractText, h]
  · intro h
    constructor
    · intro hav hp
      simp [extractText, h, hav, hp]
    · intro hav
      simp [extractText, h, hav]
  · intro h
    have h1 : docxMime ≠ pdfMime := by decide
    constructor
    · intro hav hp
      simp [extractText, h, hav, hp, h1]
    · intro hav
      simp [extractText, h, hav, h1]
  · intro h
    have h1 : xlsxMime ≠ pdfMime := by decide
    have h2 : xlsxMime ≠ docxMime := by decide
    constructor
    · intro hav hp
      simp [extractText, h, hav, hp, h1, h2]
    · intro hav
      simp [extractText, h, hav, h1, h2]
  · intro h
    have h1 : pptxMime ≠ pdfMime := by decide
    have h2 : pptxMime ≠ docxMime := by decide
    have h3 : pptxMime ≠ xlsxMime := by decide
    constructor
    · intro hav hp
      simp [extractText, h, hav, hp, h1, h2, h3]
    · intro hav
      simp [extractText, h, hav, h1, h2, h3]

/-- Witness for `extract_error_semantics`: a PDF whose available parser
fails internally yields `("", "application/pdf")`. -/
theorem extract_error_semantics_witness :
    extractText
      { detectedMime := some pdfMime, pdfAvailable := true,
        docxAvailable := true, xlsxAvailable := true, pptxAvailable := true,
        pdfParse := none, docxParse := none, xlsxParse := none,
        pptxParse := none, fileBytes := [], notebook := none }
      "a.pdf".toList = ([], pdfMime) :=
  ((extract_error_semantics _ _).2.1 rfl).1 rfl rfl

/-- The inner loop over a code cell's outputs appends the joined text of
every `stream` output followed by a newline. -/
theorem nbOutputsFold (outs : List NbOutput) (a : Str) :
    outs.foldl (fun a o =>
        if o.output_type = "stream".toList then a ++ joinSource o.text ++ "\n".toList
        else a) a =
      a ++ ((outs.filter (fun o => o.output_type = "stream".toList)).map
        (fun o => joinSource o.text ++ "\n".toList)).flatten := by
  induction outs generalizing a with
  | nil => simp
  | cons o rest ih =>
    rw [List.foldl_cons]
    by_cases h : o.output_type = "stream".toList
    · rw [if_pos h, ih, List.filter_cons_of_pos (by simp [h]), List.map_cons,
        List.flatten_cons]
      simp [List.append_assoc]
    · rw [if_neg h, ih, List.filter_cons_of_neg (by simpa using h)]

/-- The cell loop of `_extract_jupyter_notebook` is the concatenation of
per-cell contributions. -/
theorem nbCellsFold (cells : List NbCell) (acc : Str) :
    cells.foldl (fun acc cell =>
        if cell.cell_type = "markdown".toList then
          acc ++ joinSource cell.source ++ "\n\n".toList
        else if cell.cell_type = "code".toList then
          cell.outputs.foldl (fun a o =>
            if o.output_type = "stream".toList then a ++ joinSource o.text ++ "\n".toList
            else a) (acc ++ joinSource cell.source ++ "\n\n".toList)
        else acc) acc =
      acc ++ (cells.map (fun cell =>
        if cell.cell_type = "markdown".toList ∨ cell.cell_type = "code".toList then
          joinSource cell.source ++ "\n\n".toList ++
            (if cell.cell_type = "code".toList then
              ((cell.outputs.filter (fun o => o.output_type = "stream".toList)).map
                (fun o => joinSource o.text ++ "\n".toList)).flatten
             else [])
        else [])).flatten := by
  induction cells generalizing acc with
  | nil => simp
  | cons c rest ih =>
    rw [List.foldl_cons]
    by_cases hmd : c.cell_type = "markdown".toList
    · have hne : ¬ c.cell_type = "code".toList := by
        rw [hmd]; decide
      rw [if_pos hmd, ih, List.map_cons, List.flatten_cons,
        if_pos (Or.inl hmd), if_neg hne]
      simp [List.append_assoc]
    · by_cases hcd : c.cell_type = "code".toList
      · rw [if_neg hmd, if_pos hcd, nbOutputsFold, ih, List.map_cons,
          List.flatten_cons, if_pos (Or.inr hcd), if_pos hcd]
        simp [List.append_assoc]
      · rw [if_neg hmd, if_neg hcd, ih, List.map_cons, List.flatten_cons,
          if_neg (not_or.mpr ⟨hmd, hcd⟩)]
        simp

/-- The notebook parser computes exactly the per-cell concatenation
described by the amended claim. -/
theorem extractJupyter_eq_spec (nb : Notebook) :
    extractJupyter nb = notebookSpec nb := by
  rw [extractJupyter, notebookSpec, nbCellsFold]
  simp

/-- C5 counterexample: a `.ipynb` file whose content is sniffed as
`application/json` is routed to the byte decoder, not the notebook
parser — the `.ipynb` check sits after the `text/*`/JSON branches, so
routing is not independent of the detected media type. -/
theorem ipynb_routing_counterexample :
    extractText
      { detectedMime := some "application/json".toList, pdfAvailable := true,
        docxAvailable := true, xlsxAvailable := true, pptxAvailable := true,
        pdfParse := none, docxParse := none, xlsxParse := none,
        pptxParse := none, fileBytes := [82, 65, 87],
        notebook := some ⟨[⟨"markdown".toList, .str "NB".toList, []⟩]⟩ }
      "nb.ipynb".toList = ("RAW".toList, "application/json".toList) ∧
    extractJupyter ⟨[⟨"markdown".toList, .str "NB".toList, []⟩]⟩ = "NB".toList ∧
    "RAW".toList ≠ "NB".toList := by
  exact ⟨by decide, by decide, by decide⟩

/-- C5 (amended): a `.ipynb` path reaches the notebook parser only when
the detected media type matches none of the earlier dispatch branches; the
parser then returns each markdown/code cell's `source` followed by a blank
line, each `stream` output's `text` followed by a single newline, all
stripped. -/
theorem ipynb_routing (w : ExtractionWorld) (path mime : Str) (nb : Notebook)
    (hm : w.detectedMime = some mime)
    (h1 : mime ≠ pdfMime) (h2 : mime ≠ docxMime) (h3 : mime ≠ xlsxMime)
    (h4 : mime ≠ pptxMime) (h5 : ¬ "text/".toList <+: mime)
    (h6 : mime ≠ "application/javascript".toList)
    (h7 : mime ≠ "application/json".toList)
    (h8 : ".ipynb".toList <:+ path)
    (h9 : w.notebook = some nb) :
    extractText w path = (extractJupyter nb, mime) ∧
    extractJupyter nb = notebookSpec nb := by
  constructor
  · simp only [extractText, hm]
    rw [if_neg h1, if_neg h2, if_neg h3, if_neg h4,
      if_neg (by rw [List.isPrefixOf_iff_prefix]; exact h5),
      if_neg (not_or.mpr ⟨h6, h7⟩),
      if_pos (by rw [List.isSuffixOf_iff_suffix]; exact h8)]
    simp only [h9]
  · exact extractJupyter_eq_spec nb

/-- Witness for `ipynb_routing`: a notebook sniffed with an unhandled
media type routes to the notebook parser. -/
theorem ipynb_routing_witness :
    extractText
      { detectedMime := some "application/x-ipynb+json".toList,
        pdfAvailable := true, docxAvailable := true, xlsxAvailable := true,
        pptxAvailable := true, pdfParse := none, docxParse := none,
        xlsxParse := none, pptxParse := none, fileBytes := [],
        notebook := some ⟨[⟨"markdown".toList, .str "NB".toList, []⟩]⟩ }
      "nb.ipynb".toList =
      (extractJupyter ⟨[⟨"markdown".toList, .str "NB".toList, []⟩]⟩,
       "application/x-ipynb+json".toList) :=
  (ipynb_routing _ _ _ _ rfl (by decide) (by decide) (by decide) (by decide)
    (by decide) (by decide) (by decide) (by decide) rfl).1

/-! ## Hybrid search lemmas -/

theorem combinedDesc_trans (a b c : SearchResult)
    (h1 : combinedDesc a b) (h2 : combinedDesc b c) : combinedDesc a c := by
  simp only [combinedDesc, decide_eq_true_eq] at h1 h2 ⊢
  exact le_trans h2 h1

theorem combinedDesc_total (a b : SearchResult) :
    combinedDesc a b || combinedDesc b a := by
  simp only [combinedDesc, Bool.or_eq_true, decide_eq_true_eq]
  exact le_total b.combined_score a.combined_score

theorem keywordSearchOnlyAux_mem (hits : List KwHit) (r : SearchResult) :
    ∀ i, r ∈ keywordSearchOnlyAux i hits →
      r.search_type = "keyword".toList ∧ r.combined_score = r.keyword_score ∧
        1 ≤ r.keyword_rank := by
  induction hits with
  | nil => intro i h; simp [keywordSearchOnlyAux] at h
  | cons x rest ih =>
    intro i h
    rcases List.mem_cons.mp h with h | h
    · subst h
      exact ⟨rfl, rfl, by show 1 ≤ i + 1; omega⟩
    · exact ih (i + 1) h

theorem semanticSearchOnlyAux_mem (hits : List SemHit) (r : SearchResult) :
    ∀ i, r ∈ semanticSearchOnlyAux i hits →
      r.search_type = "semantic".toList ∧ r.keyword_score = 0 ∧
        r.keyword_rank = 0 ∧ r.combined_score = r.semantic_score := by
  induction hits with
  | nil => intro i h; simp [semanticSearchOnlyAux] at h
  | cons x rest ih =>
    intro i h
    rcases List.mem_cons.mp h with h | h
    · subst h
      exact ⟨rfl, rfl, rfl, rfl⟩
    · exact ih (i + 1) h

/-- Every value of `dictInsert m k v` is a value of `m` or is `v`. -/
theorem dictInsert_values (m : List (Str × SearchResult)) (k : Str)
    (v : SearchResult) (Q : SearchResult → Prop)
    (hm : ∀ p ∈ m, Q p.2) (hv : Q v) :
    ∀ p ∈ dictInsert m k v, Q p.2 := by
  intro p hp
  rw [dictInsert] at hp
  by_cases hc : m.any (fun p => p.1 = k)
  · rw [if_pos hc] at hp
    obtain ⟨q, hq, hqeq⟩ := List.mem_map.mp hp
    by_cases he : q.1 = k
    · rw [if_pos he] at hqeq
      rw [← hqeq]
      exact hv
    · rw [if_neg he] at hqeq
      rw [← hqeq]
      exact hm q hq
  · rw [if_neg hc] at hp
    rcases List.mem_append.mp hp with h | h
    · exact hm p h
    · simp only [List.mem_singleton] at h
      rw [h]
      exact hv

/-- Values accumulated by the keyword insertion phase. -/
theorem dictInsert_fold_values (Q : SearchResult → Prop) (hits : List SearchResult) :
    ∀ m, (∀ p ∈ m, Q p.2) → (∀ r ∈ hits, Q r) →
      ∀ p ∈ hits.foldl (fun m r => dictInsert m r.path r) m, Q p.2 := by
  induction hits with
  | nil => intro m hm _ p hp; exact hm p hp
  | cons x rest ih =>
    intro m hm hhits p hp
    simp only [List.foldl_cons] at hp
    exact ih (dictInsert m x.path x)
      (dictInsert_values m x.path x Q hm (hhits x (List.mem_cons_self x rest)))
      (fun r hr => hhits r (List.mem_cons_of_mem _ hr)) p hp

theorem mergeSemantic_values (wk ws : ℚ) (m : List (Str × SearchResult))
    (s : SearchResult) (hm : ∀ p ∈ m, scoreLaw wk ws p.2)
    (hs : s.keyword_score = 0) :
    ∀ p ∈ mergeSemantic wk ws m s, scoreLaw wk ws p.2 := by
  intro p hp
  rw [mergeSemantic] at hp
  by_cases hc : m.any (fun p => p.1 = s.path)
  · rw [if_pos hc] at hp
    obtain ⟨q, hq, hqeq⟩ := List.mem_map.mp hp
    by_cases he : q.1 = s.path
    · rw [if_pos he] at hqeq
      rw [← hqeq]
      have hneq : ("hybrid".toList : Str) ≠ "keyword".toList := by decide
      exact ⟨fun _ => rfl, fun h => absurd h hneq⟩
    · rw [if_neg he] at hqeq
      rw [← hqeq]
      exact hm q hq
  · rw [if_neg hc] at hp
    rcases List.mem_append.mp hp with h | h
    · exact hm p h
    · simp only [List.mem_singleton] at h
      rw [h]
      have hneq : ("semantic".toList : Str) ≠ "keyword".toList := by decide
      refine ⟨fun _ => ?_, fun h => absurd h hneq⟩
      show ws * s.semantic_score = wk * s.keyword_score + ws * s.semantic_score
      rw [hs, mul_zero, zero_add]

theorem mergeSemantic_fold_values (wk ws : ℚ) (sems : List SearchResult) :
    ∀ m, (∀ p ∈ m, scoreLaw wk ws p.2) → (∀ s ∈ sems, s.keyword_score = 0) →
      ∀ p ∈ sems.foldl (mergeSemantic wk ws) m, scoreLaw wk ws p.2 := by
  induction sems with
  | nil => intro m hm _ p hp; exact hm p hp
  | cons x rest ih =>
    intro m hm hsems p hp
    simp only [List.foldl_cons] at hp
    exact ih (mergeSemantic wk ws m x)
      (mergeSemantic_values wk ws m x hm (hsems x (List.mem_cons_self x rest)))
      (fun r hr => hsems r (List.mem_cons_of_mem _ hr)) p hp

/-- Every element of the merged values satisfies the score law. -/
theorem mergedValues_scoreLaw (kwHits : List KwHit) (semHits : List SemHit)
    (wk ws : ℚ) (r : SearchResult)
    (hr : r ∈ mergedValues (keywordSearchOnly kwHits) (semanticSearchOnly semHits) wk ws) :
    scoreLaw wk ws r := by
  rw [mergedValues] at hr
  obtain ⟨p, hp, hpr⟩ := List.mem_map.mp hr
  rw [← hpr]
  refine mergeSemantic_fold_values wk ws (semanticSearchOnly semHits) _ ?_ ?_ p hp
  · refine dictInsert_fold_values (scoreLaw wk ws) (keywordSearchOnly kwHits) [] (by simp) ?_
    intro x hx
    obtain ⟨ht, hcs, -⟩ := keywordSearchOnlyAux_mem kwHits x 0 hx
    exact ⟨fun hne => absurd ht hne, fun _ => hcs⟩
  · intro s hsm
    exact (semanticSearchOnlyAux_mem semHits s 0 hsm).2.1

theorem keywordSearchOnlyAux_length (hits : List KwHit) :
    ∀ i, (keywordSearchOnlyAux i hits).length = hits.length := by
  induction hits with
  | nil => intro i; rfl
  | cons x rest ih => intro i; simp [keywordSearchOnlyAux, ih]

theorem keywordSearchOnlyAux_paths (hits : List KwHit) :
    ∀ i, (keywordSearchOnlyAux i hits).map (fun r => r.path) =
      hits.map KwHit.path := by
  induction hits with
  | nil => intro i; rfl
  | cons x rest ih => intro i; simp [keywordSearchOnlyAux, ih]

theorem keywordSearchOnlyAux_getD (hits : List KwHit) :
    ∀ i j, j < hits.length →
      ((keywordSearchOnlyAux i hits).getD j default).keyword_rank = i + j + 1 ∧
      ((keywordSearchOnlyAux i hits).getD j default).keyword_score =
        (hits.getD j default).score ∧
      ((keywordSearchOnlyAux i hits).getD j default).combined_score =
        (hits.getD j default).score := by
  induction hits with
  | nil => intro i j h; simp at h
  | cons x rest ih =>
    intro i j h
    cases j with
    | zero =>
      exact ⟨rfl, rfl, rfl⟩
    | succ k =>
      simp only [keywordSearchOnlyAux, List.getD_cons_succ]
      have hk : k < rest.length := by simpa using h
      obtain ⟨h1, h2, h3⟩ := ih (i + 1) k hk
      refine ⟨?_, h2, h3⟩
      rw [h1]; omega

theorem kwAligned_base (A : List SearchResult)
    (hA : ∀ i, i < A.length →
      (A.getD i default).combined_score = (A.getD i default).keyword_score) :
    kwAligned A (A.map (fun r => (r.path, r))) := by
  unfold kwAligned
  refine ⟨by simp, ?_, ?_⟩
  · intro i hi
    have hmap : (A.map (fun r => (r.path, r))).getD i default =
        ((A.getD i default).path, A.getD i default) := by
      rw [List.getD_eq_getElem _ _ (by simpa using hi), List.getElem_map,
        List.getD_eq_getElem _ _ hi]
    rw [hmap]
    exact ⟨rfl, rfl, hA i hi⟩
  · intro j hj1 hj2
    rw [List.length_map] at hj2
    omega

theorem getD_map_pair (m : List (Str × SearchResult))
    (f : Str × SearchResult → Str × SearchResult) (i : Nat) (h : i < m.length) :
    (m.map f).getD i default = f (m.getD i default) := by
  rw [List.getD_eq_getElem _ _ (by simpa using h), List.getElem_map,
    List.getD_eq_getElem _ _ h]

theorem kwAligned_merge (A : List SearchResult) (m : List (Str × SearchResult))
    (s : SearchResult) (hm : kwAligned A m)
    (hr : s.keyword_rank = 0) (hk : s.keyword_score = 0) :
    kwAligned A (mergeSemantic 1 0 m s) := by
  unfold kwAligned at hm ⊢
  obtain ⟨hlen, hlow, hhigh⟩ := hm
  rw [mergeSemantic]
  by_cases hc : m.any (fun p => p.1 = s.path)
  · rw [if_pos hc]
    refine ⟨by simpa using hlen, ?_, ?_⟩
    · intro i hi
      have him : i < m.length := lt_of_lt_of_le hi hlen
      rw [getD_map_pair _ _ i him]
      simp only []
      obtain ⟨h1, h2, h3⟩ := hlow i hi
      by_cases he : (m.getD i default).1 = s.path
      · rw [if_pos he]
        refine ⟨h1, h2, ?_⟩
        show 1 * (m.getD i default).2.keyword_score + 0 * s.semantic_score = _
        rw [one_mul, zero_mul, add_zero]
        exact h2
      · rw [if_neg he]
        exact ⟨h1, h2, h3⟩
    · intro j hj1 hj2
      rw [List.length_map] at hj2
      rw [getD_map_pair _ _ j hj2]
      simp only []
      obtain ⟨h1, h2, h3⟩ := hhigh j hj1 hj2
      by_cases he : (m.getD j default).1 = s.path
      · rw [if_pos he]
        refine ⟨h1, h2, ?_⟩
        show 1 * (m.getD j default).2.keyword_score + 0 * s.semantic_score = 0
        rw [h2, one_mul, zero_mul, add_zero]
      · rw [if_neg he]
        exact ⟨h1, h2, h3⟩
  · rw [if_neg hc]
    refine ⟨le_trans hlen (by simp), ?_, ?_⟩
    · intro i hi
      have him : i < m.length := lt_of_lt_of_le hi hlen
      rw [List.getD_append _ _ _ _ him]
      exact hlow i hi
    · intro j hj1 hj2
      simp only [List.length_append, List.length_singleton] at hj2
      by_cases hjm : j < m.length
      · rw [List.getD_append _ _ _ _ hjm]
        exact hhigh j hj1 hjm
      · have hj : j = m.length := by omega
        subst hj
        have hx : (m ++ [(s.path, { s with
            search_type := "semantic".toList
            combined_score := 0 * s.semantic_score })]).getD m.length default =
            (s.path, { s with
              search_type := "semantic".toList
              combined_score := 0 * s.semantic_score }) := by
          rw [List.getD_eq_getElem?_getD, List.getElem?_concat_length]
          rfl
        rw [hx]
        exact ⟨hr, hk, zero_mul _⟩

theorem kwAligned_fold (A : List SearchResult) (sems : List SearchResult) :
    ∀ m, kwAligned A m →
      (∀ s ∈ sems, s.keyword_rank = 0 ∧ s.keyword_score = 0) →
      kwAligned A (sems.foldl (mergeSemantic 1 0) m) := by
  induction sems with
  | nil => intro m hm _; simpa using hm
  | cons x rest ih =>
    intro m hm hs
    simp only [List.foldl_cons]
    exact ih _
      (kwAligned_merge A m x hm (hs x (List.mem_cons_self x rest)).1
        (hs x (List.mem_cons_self x rest)).2)
      (fun r hr => hs r (List.mem_cons_of_mem _ hr))

/-- With distinct keyword paths, the insertion phase is a plain append of
key-value pairs in keyword order. -/
theorem dictInsert_fold_eq (hits : List SearchResult) :
    ∀ m, (∀ r ∈ hits, ∀ p ∈ m, p.1 ≠ r.path) →
      (hits.map (fun r => r.path)).Nodup →
      hits.foldl (fun m r => dictInsert m r.path r) m =
        m ++ hits.map (fun r => (r.path, r)) := by
  induction hits with
  | nil => intro m _ _; simp
  | cons x rest ih =>
    intro m hdisj hnd
    simp only [List.foldl_cons]
    have hnone : ¬ m.any (fun p => p.1 = x.path) = true := by
      simp only [List.any_eq_true, not_exists, not_and]
      intro p hp
      simpa using hdisj x (List.mem_cons_self x rest) p hp
    rw [dictInsert, if_neg hnone, ih (m ++ [(x.path, x)]) ?_ ?_]
    · simp
    · intro r hrr p hp
      rcases List.mem_append.mp hp with h | h
      · exact hdisj r (List.mem_cons_of_mem _ hrr) p h
      · simp only [List.mem_singleton] at h
        subst h
        intro hcontra
        have hmem : r.path ∈ rest.map (fun r => r.path) :=
          List.mem_map.mpr ⟨r, hrr, rfl⟩
        rw [List.map_cons] at hnd
        rw [← hcontra] at hmem
        exact (List.nodup_cons.mp hnd).1 hmem
    · rw [List.map_cons] at hnd
      exact (List.nodup_cons.mp hnd).2

theorem pairwise_of_getD {α : Type} [Inhabited α] (l : List α) (R : α → α → Prop)
    (h : ∀ i j, i < j → j < l.length → R (l.getD i default) (l.getD j default)) :
    l.Pairwise R := by
  rw [List.pairwise_iff_getElem]
  intro i j hi hj hij
  have hr := h i j hij hj
  rwa [List.getD_eq_getElem _ _ hi, List.getD_eq_getElem _ _ hj] at hr

theorem getD_of_pairwise {α : Type} [Inhabited α] (l : List α) (R : α → α → Prop)
    (hp : l.Pairwise R) (i j : Nat) (hij : i < j) (hj : j < l.length) :
    R (l.getD i default) (l.getD j default) := by
  rw [List.pairwise_iff_getElem] at hp
  have hi : i < l.length := lt_trans hij hj
  rw [List.getD_eq_getElem _ _ hi, List.getD_eq_getElem _ _ hj]
  exact hp i j hi hj hij

theorem getD_map_snd (m : List (Str × SearchResult)) (i : Nat) (h : i < m.length) :
    (m.map Prod.snd).getD i default = (m.getD i default).2 := by
  rw [List.getD_eq_getElem _ _ (by simpa using h), List.getElem_map,
    List.getD_eq_getElem _ _ h]

theorem getD_take_eq (L : List SearchResult) (n i : Nat) (h1 : i < n)
    (h2 : i < L.length) :
    (L.take n).getD i default = L.getD i default := by
  rw [List.getD_eq_getElem _ _ (by simp [List.length_take]; omega),
    List.getElem_take, List.getD_eq_getElem _ _ h2]

theorem getD_drop_eq (L : List SearchResult) (n j : Nat) (h : n + j < L.length) :
    (L.drop n).getD j default = L.getD (n + j) default := by
  rw [List.getD_eq_getElem _ _ (by simp [List.length_drop]; omega),
    List.getElem_drop, List.getD_eq_getElem _ _ h]

/-- When the semantic weight is `0` and the keyword weight normalizes to
`1`, the keyword-derived entries of the hybrid output (those with a
positive keyword rank) appear in keyword-rank order: the hybrid ranking
restricted to keyword hits is the keyword ranking. -/
theorem combine_ws_zero_pairwise (kwHits : List KwHit) (semHits : List SemHit)
    (limit : Nat) (hnd : (kwHits.map KwHit.path).Nodup)
    (hdesc : kwHits.Pairwise (fun a b => b.score ≤ a.score)) :
    (((combineSearchResults (keywordSearchOnly kwHits)
        (semanticSearchOnly semHits) 1 0).take limit).filter
      (fun r => 1 ≤ r.keyword_rank)).Pairwise
      (fun a b => a.keyword_rank < b.keyword_rank) := by
  have hpaths : (keywordSearchOnly kwHits).map (fun r => r.path) =
      kwHits.map KwHit.path := keywordSearchOnlyAux_paths kwHits 0
  have hndA : ((keywordSearchOnly kwHits).map (fun r => r.path)).Nodup := by
    rw [hpaths]; exact hnd
  have hm0 : (keywordSearchOnly kwHits).foldl (fun m r => dictInsert m r.path r) [] =
      (keywordSearchOnly kwHits).map (fun r => (r.path, r)) := by
    simpa using dictInsert_fold_eq (keywordSearchOnly kwHits) [] (by simp) hndA
  have hAlen : (keywordSearchOnly kwHits).length = kwHits.length :=
    keywordSearchOnlyAux_length kwHits 0
  have hbase : kwAligned (keywordSearchOnly kwHits)
      ((keywordSearchOnly kwHits).map (fun r => (r.path, r))) := by
    refine kwAligned_base _ (fun i hi => ?_)
    obtain ⟨-, h2, h3⟩ := keywordSearchOnlyAux_getD kwHits 0 i (by omega)
    show ((keywordSearchOnlyAux 0 kwHits).getD i default).combined_score =
      ((keywordSearchOnlyAux 0 kwHits).getD i default).keyword_score
    rw [h3, h2]
  have hsem : ∀ s ∈ semanticSearchOnly semHits,
      s.keyword_rank = 0 ∧ s.keyword_score = 0 := by
    intro s hs
    obtain ⟨-, h2, h3, -⟩ := semanticSearchOnlyAux_mem semHits s 0 hs
    exact ⟨h3, h2⟩
  have hm1 := kwAligned_fold (keywordSearchOnly kwHits)
    (semanticSearchOnly semHits) _ hbase hsem
  unfold kwAligned at hm1
  obtain ⟨hlen, hlow, hhigh⟩ := hm1
  have hL : mergedValues (keywordSearchOnly kwHits) (semanticSearchOnly semHits) 1 0 =
      ((semanticSearchOnly semHits).foldl (mergeSemantic 1 0)
        ((keywordSearchOnly kwHits).map (fun r => (r.path, r)))).map Prod.snd := by
    rw [mergedValues, hm0]
  -- positional facts on the merged values
  have hLlen : (mergedValues (keywordSearchOnly kwHits)
      (semanticSearchOnly semHits) 1 0).length =
      ((semanticSearchOnly semHits).foldl (mergeSemantic 1 0)
        ((keywordSearchOnly kwHits).map (fun r => (r.path, r)))).length := by
    rw [hL, List.length_map]
  have hAleL : (keywordSearchOnly kwHits).length ≤
      (mergedValues (keywordSearchOnly kwHits)
        (semanticSearchOnly semHits) 1 0).length := by
    rw [hLlen]; exact hlen
  have hlowL : ∀ i, i < (keywordSearchOnly kwHits).length →
      ((mergedValues (keywordSearchOnly kwHits)
        (semanticSearchOnly semHits) 1 0).getD i default).keyword_rank = i + 1 ∧
      ((mergedValues (keywordSearchOnly kwHits)
        (semanticSearchOnly semHits) 1 0).getD i default).combined_score =
        (kwHits.getD i default).score := by
    intro i hi
    have him : i < ((semanticSearchOnly semHits).foldl (mergeSemantic 1 0)
        ((keywordSearchOnly kwHits).map (fun r => (r.path, r)))).length :=
      lt_of_lt_of_le hi hlen
    rw [hL, getD_map_snd _ i him]
    obtain ⟨h1, h2, h3⟩ := hlow i hi
    obtain ⟨g1, g2, -⟩ := keywordSearchOnlyAux_getD kwHits 0 i (by omega)
    constructor
    · rw [h1]
      show ((keywordSearchOnlyAux 0 kwHits).getD i default).keyword_rank = i + 1
      rw [g1]
      omega
    · rw [h3]
      show ((keywordSearchOnlyAux 0 kwHits).getD i default).keyword_score =
        (kwHits.getD i default).score
      exact g2
  have hhighL : ∀ j, (keywordSearchOnly kwHits).length ≤ j →
      j < (mergedValues (keywordSearchOnly kwHits)
        (semanticSearchOnly semHits) 1 0).length →
      ((mergedValues (keywordSearchOnly kwHits)
        (semanticSearchOnly semHits) 1 0).getD j default).keyword_rank = 0 := by
    intro j hj1 hj2
    rw [hLlen] at hj2
    rw [hL, getD_map_snd _ j hj2]
    exact (hhigh j hj1 hj2).1
  -- abbreviations
  have hA'len : ((mergedValues (keywordSearchOnly kwHits)
      (semanticSearchOnly semHits) 1 0).take
        (keywordSearchOnly kwHits).length).length =
      (keywordSearchOnly kwHits).length := by
    rw [List.length_take]
    omega
  -- the keyword-rank filter keeps exactly the keyword-aligned prefix
  have hfilter : (mergedValues (keywordSearchOnly kwHits)
      (semanticSearchOnly semHits) 1 0).filter (fun r => 1 ≤ r.keyword_rank) =
      (mergedValues (keywordSearchOnly kwHits)
        (semanticSearchOnly semHits) 1 0).take
          (keywordSearchOnly kwHits).length := by
    conv_lhs => rw [← List.take_append_drop (keywordSearchOnly kwHits).length
      (mergedValues (keywordSearchOnly kwHits) (semanticSearchOnly semHits) 1 0)]
    rw [List.filter_append]
    have h1 : ((mergedValues (keywordSearchOnly kwHits)
        (semanticSearchOnly semHits) 1 0).take
          (keywordSearchOnly kwHits).length).filter
        (fun r => 1 ≤ r.keyword_rank) =
        (mergedValues (keywordSearchOnly kwHits)
          (semanticSearchOnly semHits) 1 0).take
            (keywordSearchOnly kwHits).length := by
      rw [List.filter_eq_self]
      intro a ha
      obtain ⟨n, hn, hna⟩ := List.mem_iff_getElem.mp ha
      have hnA : n < (keywordSearchOnly kwHits).length := by
        rw [hA'len] at hn
        exact hn
      have hrank := (hlowL n hnA).1
      rw [← List.getD_eq_getElem _ _ hn, getD_take_eq _ _ _ hnA (by omega)] at hna
      rw [← hna]
      simp only [hrank, decide_eq_true_eq]
      omega
    have h2 : ((mergedValues (keywordSearchOnly kwHits)
        (semanticSearchOnly semHits) 1 0).drop
          (keywordSearchOnly kwHits).length).filter
        (fun r => 1 ≤ r.keyword_rank) = [] := by
      rw [List.filter_eq_nil_iff]
      intro a ha
      obtain ⟨n, hn, hna⟩ := List.mem_iff_getElem.mp ha
      have hnL : (keywordSearchOnly kwHits).length + n <
          (mergedValues (keywordSearchOnly kwHits)
            (semanticSearchOnly semHits) 1 0).length := by
        rw [List.length_drop] at hn
        omega
      have hz := hhighL ((keywordSearchOnly kwHits).length + n) (by omega) hnL
      rw [← List.getD_eq_getElem _ _ hn, getD_drop_eq _ _ _ hnL] at hna
      rw [← hna]
      simp only [hz, decide_eq_true_eq]
      omega
    rw [h1, h2, List.append_nil]
  -- the keyword-aligned prefix is sorted descending and rank-increasing
  have hA'desc : ((mergedValues (keywordSearchOnly kwHits)
      (semanticSearchOnly semHits) 1 0).take
        (keywordSearchOnly kwHits).length).Pairwise
      (fun a b => combinedDesc a b = true) := by
    refine pairwise_of_getD _ _ (fun i j hij hj => ?_)
    rw [hA'len] at hj
    have hi : i < (keywordSearchOnly kwHits).length := lt_trans hij hj
    rw [getD_take_eq _ _ _ hi (by omega), getD_take_eq _ _ _ hj (by omega)]
    have hci := (hlowL i hi).2
    have hcj := (hlowL j hj).2
    have hsc : (kwHits.getD j default).score ≤ (kwHits.getD i default).score :=
      getD_of_pairwise kwHits _ hdesc i j hij (by omega)
    simp only [combinedDesc, decide_eq_true_eq]
    rw [hci, hcj]
    exact hsc
  have hA'rank : ((mergedValues (keywordSearchOnly kwHits)
      (semanticSearchOnly semHits) 1 0).take
        (keywordSearchOnly kwHits).length).Pairwise
      (fun a b => a.keyword_rank < b.keyword_rank) := by
    refine pairwise_of_getD _ _ (fun i j hij hj => ?_)
    rw [hA'len] at hj
    have hi : i < (keywordSearchOnly kwHits).length := lt_trans hij hj
    rw [getD_take_eq _ _ _ hi (by omega), getD_take_eq _ _ _ hj (by omega),
      (hlowL i hi).1, (hlowL j hj).1]
    omega
  -- stability: the prefix survives the sort as a sublist
  have hsub : List.Sublist ((mergedValues (keywordSearchOnly kwHits)
      (semanticSearchOnly semHits) 1 0).take
        (keywordSearchOnly kwHits).length)
      (combineSearchResults (keywordSearchOnly kwHits)
        (semanticSearchOnly semHits) 1 0) := by
    rw [combineSearchResults]
    exact List.sublist_mergeSort combinedDesc_trans combinedDesc_total hA'desc
      (List.take_sublist _ _)
  -- the filtered sort is exactly the prefix
  have hperm : List.Perm ((combineSearchResults (keywordSearchOnly kwHits)
      (semanticSearchOnly semHits) 1 0).filter (fun r => 1 ≤ r.keyword_rank))
      ((mergedValues (keywordSearchOnly kwHits)
        (semanticSearchOnly semHits) 1 0).take
          (keywordSearchOnly kwHits).length) := by
    rw [← hfilter]
    exact (List.mergeSort_perm _ _).filter _
  have hfsub : List.Sublist ((mergedValues (keywordSearchOnly kwHits)
      (semanticSearchOnly semHits) 1 0).take
        (keywordSearchOnly kwHits).length)
      ((combineSearchResults (keywordSearchOnly kwHits)
        (semanticSearchOnly semHits) 1 0).filter (fun r => 1 ≤ r.keyword_rank)) := by
    have h1 : ((mergedValues (keywordSearchOnly kwHits)
        (semanticSearchOnly semHits) 1 0).take
          (keywordSearchOnly kwHits).length).filter
        (fun r => 1 ≤ r.keyword_rank) =
        (mergedValues (keywordSearchOnly kwHits)
          (semanticSearchOnly semHits) 1 0).take
            (keywordSearchOnly kwHits).length := by
      rw [List.filter_eq_self]
      intro a ha
      obtain ⟨n, hn, hna⟩ := List.mem_iff_getElem.mp ha
      have hnA : n < (keywordSearchOnly kwHits).length := by
        rw [hA'len] at hn
        exact hn
      have hrank := (hlowL n hnA).1
      rw [← List.getD_eq_getElem _ _ hn, getD_take_eq _ _ _ hnA (by omega)] at hna
      rw [← hna]
      simp only [hrank, decide_eq_true_eq]
      omega
    rw [← h1]
    exact List.Sublist.filter _ hsub
  have hfeq : (combineSearchResults (keywordSearchOnly kwHits)
      (semanticSearchOnly semHits) 1 0).filter (fun r => 1 ≤ r.keyword_rank) =
      ((mergedValues (keywordSearchOnly kwHits)
        (semanticSearchOnly semHits) 1 0).take
          (keywordSearchOnly kwHits).length) :=
    (hfsub.eq_of_length hperm.length_eq.symm).symm
  -- conclude through take limit
  have htksub : List.Sublist (((combineSearchResults (keywordSearchOnly kwHits)
      (semanticSearchOnly semHits) 1 0).take limit).filter
        (fun r => 1 ≤ r.keyword_rank))
      ((combineSearchResults (keywordSearchOnly kwHits)
        (semanticSearchOnly semHits) 1 0).filter (fun r => 1 ≤ r.keyword_rank)) :=
    List.Sublist.filter _ (List.take_sublist _ _)
  rw [hfeq] at htksub
  exact List.Pairwise.sublist htksub hA'rank

theorem normalizeWeights_ws_zero (wk : ℚ) (h : 0 < wk) :
    normalizeWeights wk 0 = (1, 0) := by
  rw [normalizeWeights, if_pos (by linarith), add_zero,
    div_self (ne_of_gt h), zero_div]

/-- Evaluation of a keyword-only hybrid search with a single hit: the
merge map holds one entry and the sort is the identity. -/
theorem hybridSearch_single_kw (k : KwHit) (limit : Nat) (wk ws : ℚ)
    (hl : 1 ≤ limit) :
    hybridSearch [k] [] limit wk ws =
      [{ path := k.path
         filename := k.filename
         file_type := k.file_type
         extension := k.extension
         size := k.size
         modified_time := k.modified_time
         keyword_score := k.score
         keyword_rank := 1
         combined_score := k.score
         search_type := "keyword".toList }] := by
  have h0 : mergedValues (keywordSearchOnly [k]) (semanticSearchOnly [])
      (normalizeWeights wk ws).1 (normalizeWeights wk ws).2 =
      [{ path := k.path
         filename := k.filename
         file_type := k.file_type
         extension := k.extension
         size := k.size
         modified_time := k.modified_time
         keyword_score := k.score
         keyword_rank := 1
         combined_score := k.score
         search_type := "keyword".toList }] := rfl
  show (combineSearchResults (keywordSearchOnly [k]) (semanticSearchOnly [])
    (normalizeWeights wk ws).1 (normalizeWeights wk ws).2).take limit = _
  rw [combineSearchResults, h0,
    List.mergeSort_of_sorted (List.pairwise_singleton _ _),
    List.take_of_length_le (by simpa using hl)]

/-- C1 counterexample: a hybrid search returning a single keyword-only
result keeps `combined = keyword_score` (here `1`), although the claim's
weighted-sum formula with the normalized weights `(1/2, 1/2)` would give
`1/2`. -/
theorem hybrid_weighted_sum_counterexample :
    hybridSearch
      [{ path := "a".toList, filename := "a".toList, extension := [],
         file_type := [], mime_type := [], size := 0, modified_time := [],
         created_time := [], indexed_time := [], score := 1 }] [] 10 1 1 =
      [{ path := "a".toList
         filename := "a".toList
         file_type := []
         extension := []
         size := 0
         modified_time := []
         keyword_score := 1
         keyword_rank := 1
         combined_score := 1
         search_type := "keyword".toList }] ∧
    normalizeWeights 1 1 = (1/2, 1/2) ∧
    (1 : ℚ) ≠ 1/2 * 1 + 1/2 * 0 := by
  refine ⟨hybridSearch_single_kw _ 10 1 1 (by omega), ?_, by norm_num⟩
  rw [normalizeWeights, if_pos (by norm_num)]
  simp only [Prod.mk.injEq]
  norm_num

/-- C1 (amended): every returned hybrid result that is not keyword-only
(`search_type ≠ "keyword"`, i.e. the path appeared in the semantic
results) has `combined = w_k · keyword_score + w_s · semantic_score` with
the normalized weights; a keyword-only result keeps its raw keyword score
as the combined score.  When `w_s = 0` (and `w_k > 0`, distinct keyword
paths, keyword scores non-increasing), the returned keyword-derived
results still appear in keyword-rank order: the hybrid ranking equals the
keyword ranking restricted to the returned set. -/
theorem hybrid_combined_score (kwHits : List KwHit) (semHits : List SemHit)
    (limit : Nat) (wk ws : ℚ) :
    (∀ r ∈ hybridSearch kwHits semHits limit wk ws,
      (r.search_type ≠ "keyword".toList →
        r.combined_score = (normalizeWeights wk ws).1 * r.keyword_score +
          (normalizeWeights wk ws).2 * r.semantic_score) ∧
      (r.search_type = "keyword".toList →
        r.combined_score = r.keyword_score)) ∧
    (ws = 0 → 0 < wk → (kwHits.map KwHit.path).Nodup →
      kwHits.Pairwise (fun a b => b.score ≤ a.score) →
      ((hybridSearch kwHits semHits limit wk ws).filter
        (fun r => 1 ≤ r.keyword_rank)).Pairwise
        (fun a b => a.keyword_rank < b.keyword_rank)) := by
  constructor
  · intro r hr
    simp only [hybridSearch] at hr
    have hr1 := List.mem_of_mem_take hr
    rw [combineSearchResults, List.mem_mergeSort] at hr1
    exact mergedValues_scoreLaw kwHits semHits _ _ r hr1
  · intro hws hwk hnd hdesc
    subst hws
    have hnw := normalizeWeights_ws_zero wk hwk
    simp only [hybridSearch, hnw]
    exact combine_ws_zero_pairwise kwHits semHits limit hnd hdesc

/-- Witness for `hybrid_combined_score`: a single keyword hit with
`w_k = 1, w_s = 0`; the returned result keeps its keyword score and the
keyword-rank order holds. -/
theorem hybrid_combined_score_witness :
    (({ path := "a".toList
        filename := "a".toList
        file_type := []
        extension := []
        size := 0
        modified_time := []
        keyword_score := 2
        keyword_rank := 1
        combined_score := 2
        search_type := "keyword".toList } : SearchResult) ∈
      hybridSearch
        [{ path := "a".toList, filename := "a".toList, extension := [],
           file_type := [], mime_type := [], size := 0, modified_time := [],
           created_time := [], indexed_time := [], score := 2 }] [] 3 1 0 ∧
      (({ path := "a".toList
          filename := "a".toList
          file_type := []
          extension := []
          size := 0
          modified_time := []
          keyword_score := 2
          keyword_rank := 1
          combined_score := 2
          search_type := "keyword".toList } : SearchResult)).combined_score =
        (({ path := "a".toList
            filename := "a".toList
            file_type := []
            extension := []
            size := 0
            modified_time := []
            keyword_score := 2
            keyword_rank := 1
            combined_score := 2
            search_type := "keyword".toList } : SearchResult)).keyword_score) ∧
    ((hybridSearch
        [{ path := "a".toList, filename := "a".toList, extension := [],
           file_type := [], mime_type := [], size := 0, modified_time := [],
           created_time := [], indexed_time := [], score := 2 }] [] 3 1 0).filter
      (fun r => 1 ≤ r.keyword_rank)).Pairwise
      (fun a b => a.keyword_rank < b.keyword_rank) := by
  have hmem :
      ({ path := "a".toList
         filename := "a".toList
         file_type := []
         extension := []
         size := 0
         modified_time := []
         keyword_score := 2
         keyword_rank := 1
         combined_score := 2
         search_type := "keyword".toList } : SearchResult) ∈
      hybridSearch
        [{ path := "a".toList, filename := "a".toList, extension := [],
           file_type := [], mime_type := [], size := 0, modified_time := [],
           created_time := [], indexed_time := [], score := 2 }] [] 3 1 0 := by
    rw [hybridSearch_single_kw _ 3 1 0 (by omega)]
    exact List.mem_singleton_self _
  refine ⟨⟨hmem, ?_⟩, ?_⟩
  · exact ((hybrid_combined_score _ [] 3 1 0).1 _ hmem).2 rfl
  · exact (hybrid_combined_score _ [] 3 1 0).2 rfl (by norm_num) (by simp) (by simp)

/-- C2 counterexample: a keyword-only hit on path `"b"` (score `1/2`) and
a semantic-only hit on path `"a"` (score `1`) with weights `(1/2, 1/2)`
tie at combined score `1/2`, and the code returns `"b"` before `"a"` —
insertion order (keyword first), not path-ascending order. -/
theorem hybrid_tie_break_counterexample :
    (hybridSearch
      [{ path := "b".toList, filename := "b".toList, extension := [],
         file_type := [], mime_type := [], size := 0, modified_time := [],
         created_time := [], indexed_time := [], score := 1/2 }]
      [{ chunk_id := "a:chunk:0".toList, text := "t".toList, score := 1,
         source_path := "a".toList, file_metadata := none }]
      10 1 1).map (fun r => r.path) = ["b".toList, "a".toList] ∧
    ((hybridSearch
      [{ path := "b".toList, filename := "b".toList, extension := [],
         file_type := [], mime_type := [], size := 0, modified_time := [],
         created_time := [], indexed_time := [], score := 1/2 }]
      [{ chunk_id := "a:chunk:0".toList, text := "t".toList, score := 1,
         source_path := "a".toList, file_metadata := none }]
      10 1 1).getD 0 default).combined_score =
    ((hybridSearch
      [{ path := "b".toList, filename := "b".toList, extension := [],
         file_type := [], mime_type := [], size := 0, modified_time := [],
         created_time := [], indexed_time := [], score := 1/2 }]
      [{ chunk_id := "a:chunk:0".toList, text := "t".toList, score := 1,
         source_path := "a".toList, file_metadata := none }]
      10 1 1).getD 1 default).combined_score ∧
    "a".toList < "b".toList := by
  have hnw : normalizeWeights 1 1 = (1/2, 1/2) := by
    rw [normalizeWeights, if_pos (by norm_num)]
    simp only [Prod.mk.injEq]
    norm_num
  have hmv : mergedValues
      (keywordSearchOnly
        [{ path := "b".toList, filename := "b".toList, extension := [],
           file_type := [], mime_type := [], size := 0, modified_time := [],
           created_time := [], indexed_time := [], score := 1/2 }])
      (semanticSearchOnly
        [{ chunk_id := "a:chunk:0".toList, text := "t".toList, score := 1,
           source_path := "a".toList, file_metadata := none }]) (1/2) (1/2) =
      [{ path := "b".toList
         filename := "b".toList
         file_type := []
         extension := []
         size := 0
         modified_time := []
         keyword_score := 1/2
         keyword_rank := 1
         combined_score := 1/2
         search_type := "keyword".toList },
       { path := "a".toList
         filename := "a".toList
         file_type := "unknown".toList
         extension := []
         size := 0
         modified_time := []
         semantic_score := 1
         semantic_rank := 1
         chunk_text := some "t".toList
         chunk_id := some "a:chunk:0".toList
         combined_score := 1/2 * 1
         search_type := "semantic".toList }] := rfl
  have hsorted : List.Pairwise (fun a b => combinedDesc a b = true)
      [{ path := "b".toList
         filename := "b".toList
         file_type := []
         extension := []
         size := 0
         modified_time := []
         keyword_score := 1/2
         keyword_rank := 1
         combined_score := 1/2
         search_type := "keyword".toList },
       { path := "a".toList
         filename := "a".toList
         file_type := "unknown".toList
         extension := []
         size := 0
         modified_time := []
         semantic_score := 1
         semantic_rank := 1
         chunk_text := some "t".toList
         chunk_id := some "a:chunk:0".toList
         combined_score := 1/2 * 1
         search_type := "semantic".toList }] := by
    refine List.pairwise_cons.mpr ⟨?_, List.pairwise_singleton _ _⟩
    intro b hb
    rw [List.mem_singleton] at hb
    subst hb
    simp only [combinedDesc, decide_eq_true_eq]
    show (1/2 * 1 : ℚ) ≤ 1/2
    norm_num
  have hout : hybridSearch
      [{ path := "b".toList, filename := "b".toList, extension := [],
         file_type := [], mime_type := [], size := 0, modified_time := [],
         created_time := [], indexed_time := [], score := 1/2 }]
      [{ chunk_id := "a:chunk:0".toList, text := "t".toList, score := 1,
         source_path := "a".toList, file_metadata := none }] 10 1 1 =
      [{ path := "b".toList
         filename := "b".toList
         file_type := []
         extension := []
         size := 0
         modified_time := []
         keyword_score := 1/2
         keyword_rank := 1
         combined_score := 1/2
         search_type := "keyword".toList },
       { path := "a".toList
         filename := "a".toList
         file_type := "unknown".toList
         extension := []
         size := 0
         modified_time := []
         semantic_score := 1
         semantic_rank := 1
         chunk_text := some "t".toList
         chunk_id := some "a:chunk:0".toList
         combined_score := 1/2 * 1
         search_type := "semantic".toList }] := by
    simp only [hybridSearch, hnw]
    rw [combineSearchResults, hmv, List.mergeSort_of_sorted hsorted]
    rfl
  refine ⟨by rw [hout]; rfl, ?_, by decide⟩
  rw [hout]
  show (1/2 : ℚ) = 1/2 * 1
  norm_num

/-- C2 (amended): the hybrid output is the first `limit` elements of the
merged results stably sorted by combined score descending.  It is sorted
non-increasingly, is the `limit`-prefix of a permutation of the merged
values, and ties keep the merge order (keyword entries in keyword order,
then semantic-only entries in semantic order) — not path-ascending
order: any correctly ordered pair of merged values survives the sort in
that order. -/
theorem hybrid_sort_order (kwHits : List KwHit) (semHits : List SemHit)
    (limit : Nat) (wk ws : ℚ) (x y : SearchResult) :
    (hybridSearch kwHits semHits limit wk ws).Pairwise
      (fun a b => b.combined_score ≤ a.combined_score) ∧
    hybridSearch kwHits semHits limit wk ws =
      (combineSearchResults (keywordSearchOnly kwHits)
        (semanticSearchOnly semHits) (normalizeWeights wk ws).1
        (normalizeWeights wk ws).2).take limit ∧
    List.Perm (combineSearchResults (keywordSearchOnly kwHits)
      (semanticSearchOnly semHits) (normalizeWeights wk ws).1
      (normalizeWeights wk ws).2)
      (mergedValues (keywordSearchOnly kwHits) (semanticSearchOnly semHits)
        (normalizeWeights wk ws).1 (normalizeWeights wk ws).2) ∧
    (List.Sublist [x, y] (mergedValues (keywordSearchOnly kwHits)
        (semanticSearchOnly semHits) (normalizeWeights wk ws).1
        (normalizeWeights wk ws).2) →
      y.combined_score ≤ x.combined_score →
      List.Sublist [x, y] (combineSearchResults (keywordSearchOnly kwHits)
        (semanticSearchOnly semHits) (normalizeWeights wk ws).1
        (normalizeWeights wk ws).2)) := by
  refine ⟨?_, rfl, ?_, ?_⟩
  · have hs := List.sorted_mergeSort combinedDesc_trans combinedDesc_total
      (mergedValues (keywordSearchOnly kwHits) (semanticSearchOnly semHits)
        (normalizeWeights wk ws).1 (normalizeWeights wk ws).2)
    have hp : (combineSearchResults (keywordSearchOnly kwHits)
        (semanticSearchOnly semHits) (normalizeWeights wk ws).1
        (normalizeWeights wk ws).2).Pairwise
        (fun a b => b.combined_score ≤ a.combined_score) := by
      rw [combineSearchResults]
      exact hs.imp (fun h => by
        simpa only [combinedDesc, decide_eq_true_eq] using h)
    exact List.Pairwise.sublist (List.take_sublist _ _) hp
  · rw [combineSearchResults]
    exact List.mergeSort_perm _ _
  · intro hsub hle
    rw [combineSearchResults]
    exact List.pair_sublist_mergeSort combinedDesc_trans combinedDesc_total
      (by simpa only [combinedDesc, decide_eq_true_eq] using hle) hsub

/-- Witness for `hybrid_sort_order`: two keyword hits in score order
survive the sort as an ordered pair, and the two-element output is sorted
non-increasingly. -/
theorem hybrid_sort_order_witness :
    List.Sublist
      [{ path := "a".toList
         filename := "a".toList
         file_type := []
         extension := []
         size := 0
         modified_time := []
         keyword_score := 1
         keyword_rank := 1
         combined_score := 1
         search_type := "keyword".toList },
       { path := "b".toList
         filename := "b".toList
         file_type := []
         extension := []
         size := 0
         modified_time := []
         keyword_score := 0
         keyword_rank := 2
         combined_score := 0
         search_type := "keyword".toList }]
      (combineSearchResults
        (keywordSearchOnly
          [{ path := "a".toList, filename := "a".toList, extension := [],
             file_type := [], mime_type := [], size := 0, modified_time := [],
             created_time := [], indexed_time := [], score := 1 },
           { path := "b".toList, filename := "b".toList, extension := [],
             file_type := [], mime_type := [], size := 0, modified_time := [],
             created_time := [], indexed_time := [], score := 0 }])
        (semanticSearchOnly []) (normalizeWeights 1 1).1
        (normalizeWeights 1 1).2) ∧
    (hybridSearch
      [{ path := "a".toList, filename := "a".toList, extension := [],
         file_type := [], mime_type := [], size := 0, modified_time := [],
         created_time := [], indexed_time := [], score := 1 },
       { path := "b".toList, filename := "b".toList, extension := [],
         file_type := [], mime_type := [], size := 0, modified_time := [],
         created_time := [], indexed_time := [], score := 0 }] [] 2 1 1).Pairwise
      (fun a b => b.combined_score ≤ a.combined_score) := by
  constructor
  · refine (hybrid_sort_order _ [] 2 1 1 _ _).2.2.2 ?_ ?_
    · show List.Sublist _ (mergedValues _ _ _ _)
      rw [show mergedValues
        (keywordSearchOnly
          [{ path := "a".toList, filename := "a".toList, extension := [],
             file_type := [], mime_type := [], size := 0, modified_time := [],
             created_time := [], indexed_time := [], score := 1 },
           { path := "b".toList, filename := "b".toList, extension := [],
             file_type := [], mime_type := [], size := 0, modified_time := [],
             created_time := [], indexed_time := [], score := 0 }])
        (semanticSearchOnly []) (normalizeWeights 1 1).1
        (normalizeWeights 1 1).2 =
        [{ path := "a".toList
           filename := "a".toList
           file_type := []
           extension := []
           size := 0
           modified_time := []
           keyword_score := 1
           keyword_rank := 1
           combined_score := 1
           search_type := "keyword".toList },
         { path := "b".toList
           filename := "b".toList
           file_type := []
           extension := []
           size := 0
           modified_time := []
           keyword_score := 0
           keyword_rank := 2
           combined_score := 0
           search_type := "keyword".toList }] from rfl]
    · show (0 : ℚ) ≤ 1
      norm_num
  · exact (hybrid_sort_order _ [] 2 1 1 default default).1

/-! ## Queue, keyword delete, similarity-search parameter claims -/

/-- C7: the indexing queue of `SmartFileIndexer` is `asyncio.Queue`, a
plain FIFO — dispatch follows enqueue order and ignores priorities
entirely, although `IndexingJob.__lt__` orders by priority value.  A
`low` job enqueued before an `immediate` job is dispatched first, while
the job ordering says the `immediate` job is smaller. -/
theorem fifo_queue_ignores_priority :
    (∀ jobs : List IndexingJob, dispatchOrder jobs = jobs) ∧
    (∀ (j : IndexingJob) (rest : List IndexingJob),
      fifoGet? (j :: rest) = some (j, rest)) ∧
    dispatchOrder (fifoPut (fifoPut []
        { file_path := "a.txt".toList, priority := .low,
          operation := "create".toList, timestamp := 0 })
        { file_path := "b.txt".toList, priority := .immediate,
          operation := "create".toList, timestamp := 1 }) =
      [{ file_path := "a.txt".toList, priority := .low,
         operation := "create".toList, timestamp := 0 },
       { file_path := "b.txt".toList, priority := .immediate,
         operation := "create".toList, timestamp := 1 }] ∧
    jobLt { file_path := "b.txt".toList, priority := .immediate,
            operation := "create".toList, timestamp := 1 }
          { file_path := "a.txt".toList, priority := .low,
            operation := "create".toList, timestamp := 0 } = true := by
  refine ⟨?_, fun j rest => rfl, by decide, by decide⟩
  intro jobs
  induction jobs with
  | nil => rfl
  | cons j rest ih => simp [dispatchOrder, ih]

/-- C9: keyword `delete` returns whether any document was removed; a
second `delete` of the same path leaves the keyword index unchanged and
returns the no-rows-affected signal `False`; a second
`delete_document_chunks` leaves both vector stores unchanged (returning
its completion signal `True`, which by design also covers the zero-row
case). -/
theorem delete_idempotent (ix : List KeywordDoc) (P : Str) (s : VectorDBState) :
    ((delete_document ix P).2 = true ↔ ∃ d ∈ ix, d.path = P) ∧
    delete_document (delete_document ix P).1 P = ((delete_document ix P).1, false) ∧
    delete_document_chunks (delete_document_chunks s P).1 P =
      ((delete_document_chunks s P).1, true) := by
  refine ⟨?_, ?_, ?_⟩
  · simp [delete_document, List.length_pos, List.filter_eq_nil_iff]
  · have h1 : (ix.filter (fun d => ¬ d.path = P)).filter
        (fun d => d.path = P) = [] := by
      rw [List.filter_eq_nil_iff]
      intro a ha
      have h := (List.mem_filter.mp ha).2
      simp at h ⊢
      exact h
    have h2 : (ix.filter (fun d => ¬ d.path = P)).filter
        (fun d => ¬ d.path = P) = ix.filter (fun d => ¬ d.path = P) := by
      rw [List.filter_eq_self]
      intro a ha
      exact (List.mem_filter.mp ha).2
    simp only [delete_document, h1, h2]
    rfl
  · by_cases hc : ((s.metaStore.filter
        (fun r => r.source_path = P)).map (fun r => r.chunk_id)) = []
    · have hs1 : (delete_document_chunks s P).1 = s := by
        simp only [delete_document_chunks]
        rw [if_pos hc]
      rw [hs1]
      simp only [delete_document_chunks]
      rw [if_pos hc]
    · have hs1 : (delete_document_chunks s P).1 =
          { vecStore := s.vecStore.filter (fun d => ¬ d.id ∈
              ((s.metaStore.filter (fun r => r.source_path = P)).map
                (fun r => r.chunk_id)))
            metaStore := s.metaStore.filter (fun r => ¬ r.source_path = P) } := by
        simp only [delete_document_chunks]
        rw [if_neg hc]
      rw [hs1]
      have hempty : (((s.metaStore.filter (fun r => ¬ r.source_path = P)).filter
          (fun r => r.source_path = P)).map (fun r => r.chunk_id)) = [] := by
        have : (s.metaStore.filter (fun r => ¬ r.source_path = P)).filter
            (fun r => r.source_path = P) = [] := by
          rw [List.filter_eq_nil_iff]
          intro a ha
          have h := (List.mem_filter.mp ha).2
          simp at h ⊢
          exact h
        rw [this]
        rfl
      simp only [delete_document_chunks]
      rw [if_pos hempty]

/-- C10: passing `top_k = 0` or `threshold = 0.0` to `similarity_search`
selects the configured default, exactly as passing `None` — a caller
cannot request zero results or disable the score filter with `0`;
non-zero values pass through. -/
theorem similarity_search_zero_defaults (retrieve : Nat → List RetrievedNode)
    (cfg : SimilarityConfig) (tk : Option Nat) (th : Option ℚ) :
    similarity_search retrieve cfg (some 0) th =
      similarity_search retrieve cfg none th ∧
    similarity_search retrieve cfg tk (some 0) =
      similarity_search retrieve cfg tk none ∧
    pyOrNat (some 0) cfg.similarity_top_k = cfg.similarity_top_k ∧
    pyOrRat (some 0) cfg.similarity_threshold = cfg.similarity_threshold ∧
    (∀ k, k ≠ 0 → pyOrNat (some k) cfg.similarity_top_k = k) ∧
    (∀ t, t ≠ 0 → pyOrRat (some t) cfg.similarity_threshold = t) := by
  refine ⟨by simp [similarity_search, pyOrNat], by simp [similarity_search, pyOrRat],
    rfl, rfl, ?_, ?_⟩
  · intro k hk
    rw [pyOrNat, if_neg hk]
  · intro t ht
    rw [pyOrRat, if_neg ht]

/-- Witness for `similarity_search_zero_defaults`: non-zero arguments
pass through unchanged. -/
theorem similarity_search_zero_defaults_witness :
    pyOrNat (some 3) 5 = 3 ∧ pyOrRat (some (1/2)) (3/4) = 1/2 :=
  ⟨(similarity_search_zero_defaults (fun _ => []) ⟨5, 3/4⟩ none none).2.2.2.2.1 3
      (by norm_num),
   (similarity_search_zero_defaults (fun _ => []) ⟨5, 3/4⟩ none none).2.2.2.2.2 (1/2)
      (by norm_num)⟩

/-! ## Chunk ids: decimal rendering and injectivity -/

theorem digitChar_isDigit (m : Nat) (hm : m < 10) : (Char.ofNat (48 + m)).isDigit := by
  interval_cases m <;> decide

theorem natDigitsAux_digits (fuel : Nat) :
    ∀ n, ∀ c ∈ natDigitsAux fuel n, c.isDigit := by
  induction fuel with
  | zero => intro n c hc; simp [natDigitsAux] at hc
  | succ f ih =>
    intro n c hc
    by_cases h : n < 10
    · simp [natDigitsAux, h] at hc
      subst hc
      exact digitChar_isDigit n h
    · simp [natDigitsAux, h] at hc
      rcases hc with hc | hc
      · exact ih (n / 10) c hc
      · subst hc
        exact digitChar_isDigit (n % 10) (Nat.mod_lt _ (by omega))

theorem natDigits_digits (n : Nat) : ∀ c ∈ natDigits n, c.isDigit :=
  natDigitsAux_digits (n + 1) n

theorem natDigitsAux_ne_nil (fuel n : Nat) : natDigitsAux (fuel + 1) n ≠ [] := by
  by_cases h : n < 10 <;> simp [natDigitsAux, h]

theorem digitChar_inj (m n : Nat) (hm : m < 10) (hn : n < 10)
    (h : Char.ofNat (48 + m) = Char.ofNat (48 + n)) : m = n := by
  revert h
  interval_cases m <;> interval_cases n <;> decide

theorem natDigitsAux_inj (f1 : Nat) :
    ∀ f2 m n, m < f1 → n < f2 →
      natDigitsAux f1 m = natDigitsAux f2 n → m = n := by
  induction f1 with
  | zero => intro f2 m n h1 _ _; omega
  | succ f ih =>
    intro f2 m n h1 h2 h
    cases f2 with
    | zero => omega
    | succ g =>
      by_cases hm : m < 10 <;> by_cases hn : n < 10
      · simp only [natDigitsAux, if_pos hm, if_pos hn] at h
        exact digitChar_inj m n hm hn (by simpa using h)
      · simp only [natDigitsAux, if_pos hm, if_neg hn] at h
        have hne : natDigitsAux g (n / 10) ≠ [] := by
          cases g with
          | zero => omega
          | succ g' => exact natDigitsAux_ne_nil g' (n / 10)
        have hlen := congrArg List.length h
        simp only [List.length_append, List.length_cons, List.length_nil] at hlen
        exact absurd (List.eq_nil_of_length_eq_zero (by omega)) hne
      · simp only [natDigitsAux, if_neg hm, if_pos hn] at h
        have hne : natDigitsAux f (m / 10) ≠ [] := by
          cases f with
          | zero => omega
          | succ f' => exact natDigitsAux_ne_nil f' (m / 10)
        have hlen := congrArg List.length h
        simp only [List.length_append, List.length_cons, List.length_nil] at hlen
        exact absurd (List.eq_nil_of_length_eq_zero (by omega)) hne
      · simp only [natDigitsAux, if_neg hm, if_neg hn] at h
        obtain ⟨h1', h2'⟩ := List.append_inj' h (by simp)
        have hmd : m / 10 < m := Nat.div_lt_self (by omega) (by omega)
        have hnd : n / 10 < n := Nat.div_lt_self (by omega) (by omega)
        have hdiv : m / 10 = n / 10 :=
          ih g (m / 10) (n / 10) (by omega) (by omega) h1'
        have hmod : m % 10 = n % 10 :=
          digitChar_inj _ _ (Nat.mod_lt _ (by omega)) (Nat.mod_lt _ (by omega))
            (by simpa using h2')
        omega

theorem natDigits_inj (m n : Nat) (h : natDigits m = natDigits n) : m = n :=
  natDigitsAux_inj (m + 1) (n + 1) m n (by omega) (by omega) h

theorem sepChunk_eq : sepChunk = [':', 'c', 'h', 'u', 'n', 'k', ':'] := by decide

theorem sep_digits_eq_nil (t d e : Str) (hd : ∀ c ∈ d, c.isDigit)
    (h : sepChunk ++ d = t ++ (sepChunk ++ e)) : t = [] := by
  by_contra ht
  have hlen1 : 1 ≤ t.length := by
    cases t with
    | nil => exact absurd rfl ht
    | cons a t' => simp
  have hsl : sepChunk.length = 7 := by decide
  by_cases h7 : 7 ≤ t.length
  · have hdrop := congrArg (List.drop 7) h
    rw [List.drop_append_eq_append_drop, List.drop_append_eq_append_drop,
      hsl] at hdrop
    rw [show (7 : Nat) - 7 = 0 from rfl, show ((7 : Nat) - t.length) = 0 from by omega,
      List.drop_zero, List.drop_zero] at hdrop
    rw [show List.drop 7 sepChunk = [] from by rw [sepChunk_eq]; rfl] at hdrop
    have hcol : (':' : Char) ∈ d := by
      rw [List.nil_append] at hdrop
      rw [hdrop, sepChunk_eq]
      simp
    exact absurd (hd ':' hcol) (by decide)
  · have hdrop := congrArg (List.drop t.length) h
    rw [List.drop_append_eq_append_drop, List.drop_append_eq_append_drop,
      hsl] at hdrop
    rw [show (t.length - t.length : Nat) = 0 from by omega,
      show ((t.length : Nat) - 7) = 0 from by omega,
      List.drop_zero, List.drop_zero, List.drop_length, List.nil_append] at hdrop
    have hk6 : t.length ≤ 6 := by omega
    set k := t.length with hk
    interval_cases k
    · have hhead := congrArg (fun l => l.headD ' ') hdrop
      rw [sepChunk_eq] at hhead
      simp [List.headD] at hhead
    · have hhead := congrArg (fun l => l.headD ' ') hdrop
      rw [sepChunk_eq] at hhead
      simp [List.headD] at hhead
    · have hhead := congrArg (fun l => l.headD ' ') hdrop
      rw [sepChunk_eq] at hhead
      simp [List.headD] at hhead
    · have hhead := congrArg (fun l => l.headD ' ') hdrop
      rw [sepChunk_eq] at hhead
      simp [List.headD] at hhead
    · have hhead := congrArg (fun l => l.headD ' ') hdrop
      rw [sepChunk_eq] at hhead
      simp [List.headD] at hhead
    · have htail := congrArg List.tail hdrop
      rw [sepChunk_eq] at htail
      simp [List.tail] at htail
      have hcmem : ('c' : Char) ∈ d := by
        rw [htail]; simp
      exact absurd (hd 'c' hcmem) (by decide)

theorem append_sep_digits_inj_le (a b d e : Str) (hd : ∀ c ∈ d, c.isDigit)
    (h : a ++ (sepChunk ++ d) = b ++ (sepChunk ++ e))
    (hab : a.length ≤ b.length) : a = b := by
  have hdropE := congrArg (List.drop a.length) h
  rw [List.drop_append_eq_append_drop, List.drop_length, Nat.sub_self,
    List.drop_zero, List.nil_append] at hdropE
  rw [List.drop_append_eq_append_drop,
    show (a.length - b.length : Nat) = 0 from by omega, List.drop_zero] at hdropE
  have ht : b.drop a.length = [] := sep_digits_eq_nil _ d e hd hdropE
  have htl := congrArg List.length ht
  rw [List.length_drop, List.length_nil] at htl
  exact (List.append_inj h (by omega)).1

theorem mkChunkId_inj (p q : Str) (i j : Nat) (h : mkChunkId p i = mkChunkId q j) :
    p = q ∧ i = j := by
  unfold mkChunkId at h
  rw [List.append_assoc, List.append_assoc] at h
  have hpq : p = q := by
    rcases Nat.le_total p.length q.length with hle | hle
    · exact append_sep_digits_inj_le p q _ _ (natDigits_digits i) h hle
    · exact (append_sep_digits_inj_le q p _ _ (natDigits_digits j) h.symm hle).symm
  subst hpq
  have h1 := List.append_cancel_left h
  have h2 := List.append_cancel_left h1
  exact ⟨rfl, natDigits_inj i j h2⟩

/-! ## Well-formedness of the chunker's output -/

theorem chunkLoop_source_id (cleaned : Str) (overlap : Int) (path : Str)
    (meta : FileMetaSnapshot) :
    ∀ segs i pos, ∀ c ∈ chunkLoop cleaned overlap path meta segs i pos,
      c.source_path = path ∧ c.chunk_id = mkChunkId path c.chunk_index := by
  intro segs
  induction segs with
  | nil => intro i pos c hc; simp [chunkLoop] at hc
  | cons seg rest ih =>
    intro i pos c hc
    simp only [chunkLoop, List.mem_cons] at hc
    rcases hc with hc | hc
    · subst hc; exact ⟨rfl, rfl⟩
    · exact ih (i + 1) _ c hc

theorem chunkLoop_indices (cleaned : Str) (overlap : Int) (path : Str)
    (meta : FileMetaSnapshot) :
    ∀ segs i pos,
      (chunkLoop cleaned overlap path meta segs i pos).map (fun c => c.chunk_index)
        = List.range' i segs.length := by
  intro segs
  induction segs with
  | nil => intro i pos; simp [chunkLoop]
  | cons seg rest ih =>
    intro i pos
    simp only [chunkLoop, List.map_cons, List.length_cons, List.range'_succ]
    rw [ih]

theorem chunkDocument_wf (splitter : Str → List Str) (overlap : Int)
    (content path : Str) (meta : FileMetaSnapshot) :
    (∀ c ∈ chunkDocument splitter overlap content path meta,
       c.source_path = path ∧ c.chunk_id = mkChunkId path c.chunk_index) ∧
    ((chunkDocument splitter overlap content path meta).map
      (fun c => c.chunk_id)).Nodup := by
  unfold chunkDocument
  split
  · simp
  · constructor
    · exact chunkLoop_source_id (cleanContent content) overlap path meta _ 0 0
    · have h1 : (chunkLoop (cleanContent content) overlap path meta
          (splitter (cleanContent content)) 0 0).map (fun c => c.chunk_id)
          = (chunkLoop (cleanContent content) overlap path meta
              (splitter (cleanContent content)) 0 0).map
              (fun c => mkChunkId path c.chunk_index) :=
        List.map_congr_left (fun c hc =>
          (chunkLoop_source_id (cleanContent content) overlap path meta _ 0 0 c hc).2)
      rw [h1,
        show (fun c : DocumentChunk => mkChunkId path c.chunk_index)
          = (mkChunkId path) ∘ (fun c : DocumentChunk => c.chunk_index) from rfl,
        ← List.map_map, chunkLoop_indices]
      exact (List.nodup_range' 0 _).map
        (fun i j hij => (mkChunkId_inj path path i j hij).2)

/-! ## Invariant preservation for the vector-database operations -/

theorem storeChunkMetadata_fold_append (rows : List ChunkRow) :
    ∀ meta : List ChunkRow,
      (∀ r ∈ rows, ∀ q ∈ meta, ¬ q.chunk_id = r.chunk_id) →
      ((rows.map (fun r => r.chunk_id)).Nodup) →
      rows.foldl storeChunkMetadata meta = meta ++ rows := by
  induction rows with
  | nil => intro meta _ _; simp
  | cons r rs ih =>
    intro meta hfresh hnd
    simp only [List.map_cons, List.nodup_cons] at hnd
    have hno : ¬ (meta.any (fun q => q.chunk_id = r.chunk_id) = true) := by
      simp only [List.any_eq_true, decide_eq_true_eq, not_exists]
      intro q
      rintro ⟨hq, hqe⟩
      exact hfresh r (List.mem_cons_self r rs) q hq hqe
    have hstore : storeChunkMetadata meta r = meta ++ [r] := by
      simp only [storeChunkMetadata]
      rw [if_neg hno]
    rw [List.foldl_cons, hstore, ih (meta ++ [r]) ?_ hnd.2, List.append_assoc,
      List.singleton_append]
    intro r' hr' q hq
    rcases List.mem_append.mp hq with hq | hq
    · exact hfresh r' (List.mem_cons_of_mem _ hr') q hq
    · simp only [List.mem_singleton] at hq
      subst hq
      intro heq
      exact hnd.1 (List.mem_map.mpr ⟨r', hr', heq.symm⟩)

theorem filter_filter_of_imp {α : Type} (P Q : α → Bool) (l : List α)
    (h : ∀ a ∈ l, P a = true → Q a = true) :
    (l.filter Q).filter P = l.filter P := by
  induction l with
  | nil => rfl
  | cons x xs ih =>
    have ih' := ih (fun a ha => h a (List.mem_cons_of_mem _ ha))
    by_cases hQ : Q x = true
    · rw [List.filter_cons_of_pos hQ]
      by_cases hP : P x = true
      · rw [List.filter_cons_of_pos hP, List.filter_cons_of_pos hP, ih']
      · rw [List.filter_cons_of_neg hP, List.filter_cons_of_neg hP, ih']
    · have hP : ¬ P x = true := fun hp => hQ (h x (List.mem_cons_self x xs) hp)
      rw [List.filter_cons_of_neg hQ, List.filter_cons_of_neg hP, ih']

theorem delete_metaStore_eq (s : VectorDBState) (p : Str) :
    (delete_document_chunks s p).1.metaStore =
      if (s.metaStore.filter (fun r => r.source_path = p)).map
          (fun r => r.chunk_id) = []
      then s.metaStore
      else s.metaStore.filter (fun r => ¬ r.source_path = p) := by
  simp only [delete_document_chunks]
  split <;> rfl

theorem delete_vecStore_eq (s : VectorDBState) (p : Str) :
    (delete_document_chunks s p).1.vecStore =
      if (s.metaStore.filter (fun r => r.source_path = p)).map
          (fun r => r.chunk_id) = []
      then s.vecStore
      else s.vecStore.filter (fun d => ¬ d.id ∈
        (s.metaStore.filter (fun r => r.source_path = p)).map
          (fun r => r.chunk_id)) := by
  simp only [delete_document_chunks]
  split <;> rfl

theorem delete_inv (model : Str) (s : VectorDBState) (E : Str → List DocumentChunk)
    (p : Str) (h : vdbInv model s E) :
    vdbInv model (delete_document_chunks s p).1
      (fun P => if p = P then [] else E P) := by
  simp only [vdbInv] at h ⊢
  obtain ⟨hW, hN, hM, hV⟩ := h
  have hids : (s.metaStore.filter (fun r => r.source_path = p)).map
      (fun r => r.chunk_id) = (E p).map (fun c => c.chunk_id) := by
    rw [hM p, List.map_map]
    rfl
  have hvin : ∀ d ∈ s.vecStore, d.source_path = p →
      d.id ∈ (s.metaStore.filter (fun r => r.source_path = p)).map
        (fun r => r.chunk_id) := by
    intro d hd hdp
    have hdmem : d ∈ s.vecStore.filter (fun x => x.source_path = p) :=
      List.mem_filter.mpr ⟨hd, by simp [hdp]⟩
    rw [hV p] at hdmem
    obtain ⟨c, hc, hcd⟩ := List.mem_map.mp hdmem
    rw [hids]
    exact List.mem_map.mpr ⟨c, hc, by rw [← hcd]; rfl⟩
  refine ⟨?_, ?_, ?_, ?_⟩
  · intro P c hc
    by_cases hp : p = P
    · rw [if_pos hp] at hc
      simp at hc
    · rw [if_neg hp] at hc
      exact hW P c hc
  · intro P
    by_cases hp : p = P
    · rw [if_pos hp]
      simp
    · rw [if_neg hp]
      exact hN P
  · intro P
    rw [delete_metaStore_eq]
    by_cases h0 : (s.metaStore.filter (fun r => r.source_path = p)).map
        (fun r => r.chunk_id) = []
    · rw [if_pos h0]
      have hmapnil : (E p).map (fun c => c.chunk_id) = [] := by
        rw [← hids]
        exact h0
      have hEp : E p = [] := List.eq_nil_of_map_eq_nil hmapnil
      by_cases hp : p = P
      · subst hp
        rw [if_pos rfl, hM p, hEp]
      · rw [if_neg hp]
        exact hM P
    · rw [if_neg h0]
      by_cases hp : p = P
      · subst hp
        rw [if_pos rfl]
        simp only [List.map_nil]
        rw [List.filter_eq_nil_iff]
        intro r hr
        have hr2 := (List.mem_filter.mp hr).2
        simp only [decide_eq_true_eq] at hr2 ⊢
        exact hr2
      · rw [if_neg hp, ← hM P]
        refine filter_filter_of_imp _ _ _ (fun r hr hrP => ?_)
        simp only [decide_eq_true_eq] at hrP ⊢
        exact fun hrp => hp (hrp.symm.trans hrP)
  · intro P
    rw [delete_vecStore_eq]
    by_cases h0 : (s.metaStore.filter (fun r => r.source_path = p)).map
        (fun r => r.chunk_id) = []
    · rw [if_pos h0]
      have hmapnil : (E p).map (fun c => c.chunk_id) = [] := by
        rw [← hids]
        exact h0
      have hEp : E p = [] := List.eq_nil_of_map_eq_nil hmapnil
      by_cases hp : p = P
      · subst hp
        rw [if_pos rfl, hV p, hEp]
      · rw [if_neg hp]
        exact hV P
    · rw [if_neg h0]
      by_cases hp : p = P
      · subst hp
        rw [if_pos rfl]
        simp only [List.map_nil]
        rw [List.filter_eq_nil_iff]
        intro d hd
        have hd1 := (List.mem_filter.mp hd).1
        have hd2 := (List.mem_filter.mp hd).2
        simp only [decide_eq_true_eq] at hd2 ⊢
        exact fun hdp => hd2 (hvin d hd1 hdp)
      · rw [if_neg hp, ← hV P]
        refine filter_filter_of_imp _ _ _ (fun d hd hdP => ?_)
        simp only [decide_eq_true_eq] at hdP ⊢
        intro hdin
        rw [hids] at hdin
        obtain ⟨c, hc, hcid⟩ := List.mem_map.mp hdin
        have hdmem : d ∈ s.vecStore.filter (fun x => x.source_path = P) :=
          List.mem_filter.mpr ⟨hd, by simp [hdP]⟩
        rw [hV P] at hdmem
        obtain ⟨c', hc', hcd⟩ := List.mem_map.mp hdmem
        have hid1 : c'.chunk_id = d.id := by rw [← hcd]; rfl
        have h2 : mkChunkId p c.chunk_index = mkChunkId P c'.chunk_index := by
          rw [← (hW p c hc).2, ← (hW P c' hc').2, hcid, hid1]
        exact hp (mkChunkId_inj _ _ _ _ h2).1

theorem add_metaStore_eq (s : VectorDBState) (chunks : List DocumentChunk)
    (model : Str) :
    (add_chunks s chunks model).1.metaStore =
      if chunks = [] then s.metaStore
      else chunks.foldl (fun m c => storeChunkMetadata m (toChunkRow model c))
        s.metaStore := by
  simp only [add_chunks]
  split <;> rfl

theorem add_vecStore_eq (s : VectorDBState) (chunks : List DocumentChunk)
    (model : Str) :
    (add_chunks s chunks model).1.vecStore =
      if chunks = [] then s.vecStore
      else s.vecStore ++ chunks.map toVectorDoc := by
  simp only [add_chunks]
  split <;> rfl

theorem add_inv (model : Str) (s : VectorDBState) (E : Str → List DocumentChunk)
    (p : Str) (chunks : List DocumentChunk)
    (h : vdbInv model s E) (hEp : E p = [])
    (hwf : ∀ c ∈ chunks, c.source_path = p ∧ c.chunk_id = mkChunkId p c.chunk_index)
    (hnd : (chunks.map (fun c => c.chunk_id)).Nodup) :
    vdbInv model (add_chunks s chunks model).1
      (fun P => if p = P then chunks else E P) := by
  simp only [vdbInv] at h ⊢
  obtain ⟨hW, hN, hM, hV⟩ := h
  refine ⟨?_, ?_, ?_, ?_⟩
  · intro P c hc
    by_cases hp : p = P
    · subst hp
      rw [if_pos rfl] at hc
      exact hwf c hc
    · rw [if_neg hp] at hc
      exact hW P c hc
  · intro P
    by_cases hp : p = P
    · rw [if_pos hp]
      exact hnd
    · rw [if_neg hp]
      exact hN P
  · intro P
    rw [add_metaStore_eq]
    by_cases hch : chunks = []
    · rw [if_pos hch]
      by_cases hp : p = P
      · subst hp
        rw [if_pos rfl, hM p, hEp, hch]
      · rw [if_neg hp]
        exact hM P
    · rw [if_neg hch]
      have hndrows : ((chunks.map (toChunkRow model)).map
          (fun r => r.chunk_id)).Nodup := by
        rw [List.map_map]
        exact hnd
      have hfresh : ∀ r ∈ chunks.map (toChunkRow model), ∀ q ∈ s.metaStore,
          ¬ q.chunk_id = r.chunk_id := by
        intro r hr q hq heq
        obtain ⟨c, hc, hcr⟩ := List.mem_map.mp hr
        have hqmem : q ∈ s.metaStore.filter
            (fun x => x.source_path = q.source_path) :=
          List.mem_filter.mpr ⟨hq, by simp⟩
        rw [hM q.source_path] at hqmem
        obtain ⟨c', hc', hcq⟩ := List.mem_map.mp hqmem
        have hq1 : q.chunk_id = c'.chunk_id := by
          rw [← hcq]
          rfl
        have hc'id := (hW q.source_path c' hc').2
        have hr1 : r.chunk_id = c.chunk_id := by
          rw [← hcr]
          rfl
        have hcid := (hwf c hc).2
        have h2 : mkChunkId q.source_path c'.chunk_index
            = mkChunkId p c.chunk_index := by
          rw [← hc'id, ← hcid, ← hq1, ← hr1, heq]
        have hQp : q.source_path = p := (mkChunkId_inj _ _ _ _ h2).1
        rw [hQp, hEp] at hc'
        exact absurd hc' (List.not_mem_nil c')
      have hfold : chunks.foldl (fun m c => storeChunkMetadata m (toChunkRow model c))
          s.metaStore = s.metaStore ++ chunks.map (toChunkRow model) := by
        rw [← List.foldl_map]
        exact storeChunkMetadata_fold_append _ _ hfresh hndrows
      rw [hfold, List.filter_append]
      by_cases hp : p = P
      · subst hp
        rw [if_pos rfl, hM p, hEp]
        simp only [List.map_nil, List.nil_append]
        rw [List.filter_eq_self]
        intro r hr
        obtain ⟨c, hc, hcr⟩ := List.mem_map.mp hr
        have hrp : r.source_path = p := by
          rw [← hcr]
          exact (hwf c hc).1
        simp [hrp]
      · rw [if_neg hp, hM P]
        have hz : (chunks.map (toChunkRow model)).filter
            (fun r => r.source_path = P) = [] := by
          rw [List.filter_eq_nil_iff]
          intro r hr
          obtain ⟨c, hc, hcr⟩ := List.mem_map.mp hr
          have hrp : r.source_path = p := by
            rw [← hcr]
            exact (hwf c hc).1
          simp only [decide_eq_true_eq]
          rw [hrp]
          exact hp
        rw [hz, List.append_nil]
  · intro P
    rw [add_vecStore_eq]
    by_cases hch : chunks = []
    · rw [if_pos hch]
      by_cases hp : p = P
      · subst hp
        rw [if_pos rfl, hV p, hEp, hch]
      · rw [if_neg hp]
        exact hV P
    · rw [if_neg hch, List.filter_append]
      by_cases hp : p = P
      · subst hp
        rw [if_pos rfl, hV p, hEp]
        simp only [List.map_nil, List.nil_append]
        rw [List.filter_eq_self]
        intro d hd
        obtain ⟨c, hc, hcd⟩ := List.mem_map.mp hd
        have hdp : d.source_path = p := by
          rw [← hcd]
          exact (hwf c hc).1
        simp [hdp]
      · rw [if_neg hp, hV P]
        have hz : (chunks.map toVectorDoc).filter
            (fun d => d.source_path = P) = [] := by
          rw [List.filter_eq_nil_iff]
          intro d hd
          obtain ⟨c, hc, hcd⟩ := List.mem_map.mp hd
          have hdp : d.source_path = p := by
            rw [← hcd]
            exact (hwf c hc).1
          simp only [decide_eq_true_eq]
          rw [hdp]
          exact hp
        rw [hz, List.append_nil]

theorem step_inv (splitter : Str → List Str) (overlap : Int) (model : Str)
    (s : VectorDBState) (E : Str → List DocumentChunk) (op : IndexOp)
    (h : vdbInv model s E) :
    vdbInv model (processVectorStep splitter overlap model s op)
      (fun P => expectedStep splitter overlap P (E P) op) := by
  cases op with
  | del p =>
    have hE : (fun P => if p = P then [] else E P)
        = (fun P => expectedStep splitter overlap P (E P) (IndexOp.del p)) := by
      funext P
      simp only [expectedStep]
    rw [← hE]
    exact delete_inv model s E p h
  | addUpd p content meta =>
    by_cases hc : content ≠ [] ∧ pyStrip content ≠ []
    · simp only [processVectorStep, if_pos hc]
      have hdel := delete_inv model s E p h
      have hEp1 : (if p = p then ([] : List DocumentChunk) else E p) = [] := by
        rw [if_pos rfl]
      by_cases hch : chunkDocument splitter overlap content p meta ≠ []
      · rw [if_pos hch]
        have hadd := add_inv model (delete_document_chunks s p).1
          (fun P => if p = P then [] else E P) p
          (chunkDocument splitter overlap content p meta) hdel hEp1
          (chunkDocument_wf splitter overlap content p meta).1
          (chunkDocument_wf splitter overlap content p meta).2
        have hE : (fun P => if p = P
              then chunkDocument splitter overlap content p meta
              else if p = P then [] else E P)
            = (fun P => expectedStep splitter overlap P (E P)
                (IndexOp.addUpd p content meta)) := by
          funext P
          by_cases hp : p = P
          · subst hp
            simp only [expectedStep]
            simp [hc.1, hc.2]
          · simp only [expectedStep]
            rw [if_neg hp, if_neg hp, if_neg (fun hcon => hp hcon.1)]
        rw [← hE]
        exact hadd
      · rw [if_neg hch]
        have hchnil : chunkDocument splitter overlap content p meta = [] := by
          by_contra hx
          exact hch hx
        have hE : (fun P => if p = P then ([] : List DocumentChunk) else E P)
            = (fun P => expectedStep splitter overlap P (E P)
                (IndexOp.addUpd p content meta)) := by
          funext P
          by_cases hp : p = P
          · subst hp
            simp only [expectedStep]
            simp [hc.1, hc.2, hchnil]
          · simp only [expectedStep]
            rw [if_neg hp, if_neg (fun hcon => hp hcon.1)]
        rw [← hE]
        exact hdel
    · simp only [processVectorStep, if_neg hc]
      have hE : E = (fun P => expectedStep splitter overlap P (E P)
          (IndexOp.addUpd p content meta)) := by
        funext P
        simp only [expectedStep]
        rw [if_neg (fun hcon => hc ⟨hcon.2.1, hcon.2.2⟩)]
      rw [← hE]
      exact h

theorem runOps_inv (splitter : Str → List Str) (overlap : Int) (model : Str)
    (ops : List IndexOp) :
    ∀ (s : VectorDBState) (E : Str → List DocumentChunk),
      vdbInv model s E →
      vdbInv model (runOps splitter overlap model s ops)
        (fun P => ops.foldl (expectedStep splitter overlap P) (E P)) := by
  induction ops with
  | nil =>
    intro s E h
    simpa [runOps] using h
  | cons op rest ih =>
    intro s E h
    have h1 := step_inv splitter overlap model s E op h
    have h2 := ih (processVectorStep splitter overlap model s op)
      (fun P => expectedStep splitter overlap P (E P) op) h1
    simpa [runOps, List.foldl_cons] using h2

theorem emptyVectorDB_inv (model : Str) :
    vdbInv model emptyVectorDB (fun _ => []) := by
  simp only [vdbInv]
  refine ⟨?_, ?_, ?_, ?_⟩ <;> intro P <;> simp [emptyVectorDB]

/-- **C3** (corrected).  For every source path `P` and every sequence of
completed add/update/delete operations, the chunks observable for `P` in
both vector-index stores equal exactly the expected chunk table for `P`:
the output of the last successful chunking of `P`'s extracted text, cleared
by a later delete of `P`, and left unchanged by add/update operations whose
extracted content is empty (their vector step is skipped entirely).  In
particular the two stores stay in sync: every embedding-store entry has a
matching metadata row for the same id and path, and conversely — no
orphaned vectors.  The original claim's "equals the last successful
chunking" reading fails once a delete follows the last add/update (see the
counterexample). -/
theorem vector_index_sync (splitter : Str → List Str) (overlap : Int)
    (model : Str) (ops : List IndexOp) (P : Str) :
    ((runOps splitter overlap model emptyVectorDB ops).metaStore.filter
        (fun r => r.source_path = P)
      = (expectedChunks splitter overlap P ops).map (toChunkRow model)) ∧
    ((runOps splitter overlap model emptyVectorDB ops).vecStore.filter
        (fun d => d.source_path = P)
      = (expectedChunks splitter overlap P ops).map toVectorDoc) ∧
    (∀ d ∈ (runOps splitter overlap model emptyVectorDB ops).vecStore,
      ∃ r ∈ (runOps splitter overlap model emptyVectorDB ops).metaStore,
        r.chunk_id = d.id ∧ r.source_path = d.source_path) ∧
    (∀ r ∈ (runOps splitter overlap model emptyVectorDB ops).metaStore,
      ∃ d ∈ (runOps splitter overlap model emptyVectorDB ops).vecStore,
        d.id = r.chunk_id ∧ d.source_path = r.source_path) := by
  have hinv := runOps_inv splitter overlap model ops emptyVectorDB (fun _ => [])
    (emptyVectorDB_inv model)
  simp only [vdbInv] at hinv
  obtain ⟨hW, hN, hM, hV⟩ := hinv
  refine ⟨hM P, hV P, ?_, ?_⟩
  · intro d hd
    have hdmem : d ∈ (runOps splitter overlap model emptyVectorDB ops).vecStore.filter
        (fun x => x.source_path = d.source_path) :=
      List.mem_filter.mpr ⟨hd, by simp⟩
    rw [hV d.source_path] at hdmem
    obtain ⟨c, hc, hcd⟩ := List.mem_map.mp hdmem
    refine ⟨toChunkRow model c, ?_, ?_, ?_⟩
    · have hin : toChunkRow model c
          ∈ (runOps splitter overlap model emptyVectorDB ops).metaStore.filter
            (fun r => r.source_path = d.source_path) := by
        rw [hM d.source_path]
        exact List.mem_map.mpr ⟨c, hc, rfl⟩
      exact List.mem_of_mem_filter hin
    · rw [← hcd]
      rfl
    · rw [← hcd]
      rfl
  · intro r hr
    have hrmem : r ∈ (runOps splitter overlap model emptyVectorDB ops).metaStore.filter
        (fun x => x.source_path = r.source_path) :=
      List.mem_filter.mpr ⟨hr, by simp⟩
    rw [hM r.source_path] at hrmem
    obtain ⟨c, hc, hcr⟩ := List.mem_map.mp hrmem
    refine ⟨toVectorDoc c, ?_, ?_, ?_⟩
    · have hin : toVectorDoc c
          ∈ (runOps splitter overlap model emptyVectorDB ops).vecStore.filter
            (fun d => d.source_path = r.source_path) := by
        rw [hV r.source_path]
        exact List.mem_map.mpr ⟨c, hc, rfl⟩
      exact List.mem_of_mem_filter hin
    · rw [← hcr]
      rfl
    · rw [← hcr]
      rfl

/-- Counterexample to the literal reading of **C3**: after an add of path
`"a"` with non-empty content followed by a delete of `"a"`, both stores
are empty, yet the last successful chunking of `"a"`'s extracted text is
non-empty — so the observed chunk set does not equal the last chunking's
output once a delete follows it. -/
theorem vector_sync_delete_counterexample :
    (runOps (fun s => [s]) 50 "m".toList emptyVectorDB
        [IndexOp.addUpd "a".toList "hello world".toList default,
         IndexOp.del "a".toList]).vecStore = [] ∧
    (runOps (fun s => [s]) 50 "m".toList emptyVectorDB
        [IndexOp.addUpd "a".toList "hello world".toList default,
         IndexOp.del "a".toList]).metaStore = [] ∧
    chunkDocument (fun s => [s]) 50 "hello world".toList "a".toList default ≠ [] := by
  refine ⟨by decide, by decide, by decide⟩

end DeepSearch
